import Mathlib

/-!
Verification of the RAGCast speaker-token normalization and segmentation
engine, embedded from `src/data_old/process/normalize_and_extract.py` and
`src/data/process/segments_to_csv.py`.  Python strings are modelled as
`List Char`; every regex operation used by the source is embedded as an
explicit character scan with the same matching semantics.
-/

/-- Coerce a Lean string literal to the `List Char` representation. -/
def str (s : String) : List Char := s.data

/-- Python whitespace: the default set stripped by `str.strip` and matched
by `\s` (for the ASCII inputs of this program). -/
def isPyWS (c : Char) : Bool :=
  c = ' ' || c = '\t' || c = '\n' || c = '\r' || c = '\x0b' || c = '\x0c'

/-- Horizontal whitespace, the class `[ \t]` of the in-line collapse regex. -/
def isHWS (c : Char) : Bool := c = ' ' || c = '\t'

/-- ASCII lowercase letter, the class `[a-z]`. -/
def isLowerA (c : Char) : Bool := 'a' ≤ c && c ≤ 'z'

/-- ASCII uppercase letter, the class `[A-Z]`. -/
def isUpperA (c : Char) : Bool := 'A' ≤ c && c ≤ 'Z'

/-- ASCII digit, the class `[0-9]`. -/
def isDigitA (c : Char) : Bool := '0' ≤ c && c ≤ '9'

/-- Regex word character `\w` (for the ASCII-plus-`’` inputs of this
program; `’` U+2019 is not a word character). -/
def isWordCh (c : Char) : Bool := isLowerA c || isUpperA c || isDigitA c || c = '_'

/-- The character class `[A-Z0-9'’\-]` of both leading-name-run regexes. -/
def isNameCh (c : Char) : Bool :=
  isUpperA c || isDigitA c || c = '\'' || c = '’' || c = '-'

/-- Python `str.rstrip()`. -/
def pyRStrip (l : List Char) : List Char := (l.reverse.dropWhile isPyWS).reverse

/-- Python `str.lstrip()`. -/
def pyLStrip (l : List Char) : List Char := l.dropWhile isPyWS

/-- Python `str.strip()`. -/
def pyStrip (l : List Char) : List Char := pyLStrip (pyRStrip l)

/-- Python `str.upper()` (ASCII). -/
def upperStr (l : List Char) : List Char := l.map Char.toUpper

/-- Python `str.split("\n")`. -/
def splitNL : List Char → List (List Char)
  | [] => [[]]
  | c :: r =>
    if c = '\n' then [] :: splitNL r
    else
      match splitNL r with
      | [] => [[c]]
      | l :: ls => (c :: l) :: ls

/-- `"\n".join`. -/
def joinNL : List (List Char) → List Char
  | [] => []
  | [l] => l
  | l :: ls => l ++ '\n' :: joinNL ls

/-- `text.replace("\r\n", "\n")`, the first line-ending normalization. -/
def replaceCRLF : List Char → List Char
  | [] => []
  | [c] => [c]
  | c :: d :: r =>
    if c = '\r' && d = '\n' then '\n' :: replaceCRLF r
    else c :: replaceCRLF (d :: r)

/-- `text.replace("\r", "\n")`, the second line-ending normalization. -/
def replaceCR (l : List Char) : List Char :=
  l.map fun c => if c = '\r' then '\n' else c

/-- Scanner for `re.sub(r"[ \t]{2,}", " ", line)`: a maximal run of two or
more horizontal-whitespace characters becomes one space; a lone space or
tab is kept as is.  The `Bool` state records being inside a run whose
single replacement space was already emitted. -/
def collapseSpA : Bool → List Char → List Char
  | _, [] => []
  | true, a :: r => if isHWS a then collapseSpA true r else a :: collapseSpA false r
  | false, a :: r =>
    if isHWS a then
      match r with
      | [] => [a]
      | b :: _ => if isHWS b then ' ' :: collapseSpA true r else a :: collapseSpA false r
    else a :: collapseSpA false r

/-- `re.sub(r"[ \t]{2,}", " ", line)`. -/
def collapseSp (l : List Char) : List Char := collapseSpA false l

/-- Scanner for `re.sub(r"\n{3,}", "\n\n", text)`: a maximal run of three
or more newlines becomes exactly two; runs of one or two newlines are kept.
The `Bool` state records being inside a long run whose two replacement
newlines were already emitted. -/
def collapseNLA : Bool → List Char → List Char
  | _, [] => []
  | true, a :: r => if a = '\n' then collapseNLA true r else a :: collapseNLA false r
  | false, [a] => [a]
  | false, [a, b] => [a, b]
  | false, a :: b :: c :: r =>
    if a = '\n' then
      if b = '\n' then
        if c = '\n' then '\n' :: '\n' :: collapseNLA true (c :: r)
        else a :: b :: collapseNLA false (c :: r)
      else a :: collapseNLA false (b :: c :: r)
    else a :: collapseNLA false (b :: c :: r)

/-- `re.sub(r"\n{3,}", "\n\n", text)`. -/
def collapseNL (l : List Char) : List Char := collapseNLA false l

/-- `clean_whitespace` from `normalize_and_extract.py`: normalize line
endings, rstrip each line, collapse in-line whitespace runs, collapse
blank runs, strip the whole text and append one final newline. -/
def clean_whitespace (t : List Char) : List Char :=
  pyStrip (collapseNL (joinNL
    (((splitNL (replaceCR (replaceCRLF t))).map pyRStrip).map collapseSp))) ++ ['\n']

/-- Prepend an ordinary character to a scan result: it extends the gap
before the first annotation (or the trailing text if there is none). -/
def consGap (c : Char) :
    List (List Char × List Char) × List Char → List (List Char × List Char) × List Char
  | ([], t) => ([], c :: t)
  | ((g, i) :: ps, t) => ((c :: g, i) :: ps, t)

/-- Scanner for `SPEAKER_RE = re.compile(r"\[([^\]]+)\]")` (`finditer`):
left-to-right, an opening bracket matches up to the first `]` provided at
least one character lies between; `[]`, and a `[` never followed by `]`,
are ordinary text.  Returns the list of (gap before the match, inner text)
pairs and the trailing text after the last match.  The `Option` state is
the reversed buffer of inner characters while inside a candidate span. -/
def scanA : Option (List Char) → List Char → List (List Char × List Char) × List Char
  | none, [] => ([], [])
  | none, c :: r => if c = '[' then scanA (some []) r else consGap c (scanA none r)
  | some buf, [] => ([], '[' :: buf.reverse)
  | some buf, c :: r =>
    if c = ']' then
      if buf = [] then consGap '[' (consGap ']' (scanA none r))
      else (([], buf.reverse) :: (scanA none r).1, (scanA none r).2)
    else scanA (some (c :: buf)) r

def scan (s : List Char) : List (List Char × List Char) × List Char := scanA none s

/-- Rebuild a text from its scan: each annotation contributes its
preceding gap and its bracketed inner text, then the trailing text. -/
def recon (x : List (List Char × List Char) × List Char) : List Char :=
  (x.1.map fun p => p.1 ++ '[' :: p.2 ++ [']']).flatten ++ x.2

/-- `SPEAKER_RE.sub(lambda m: "[" + f(m.group(1)) + "]", s)`. -/
def speakerSub (f : List Char → List Char) (s : List Char) : List Char :=
  ((scan s).1.map fun p => p.1 ++ '[' :: f p.2 ++ [']']).flatten ++ (scan s).2

/-- Scanner for `re.sub(r"\(.*?\)", "", p)`: each `(` is removed together
with everything up to the nearest `)`, unless a newline (which `.` does
not match) or the end of the text intervenes, in which case the `(` and
the scanned characters stay as ordinary text. -/
def subParenA : Option (List Char) → List Char → List Char
  | none, [] => []
  | none, c :: r => if c = '(' then subParenA (some []) r else c :: subParenA none r
  | some buf, [] => '(' :: buf.reverse
  | some buf, c :: r =>
    if c = ')' then subParenA none r
    else if c = '\n' then '(' :: buf.reverse ++ '\n' :: subParenA none r
    else subParenA (some (c :: buf)) r

def subParen (l : List Char) : List Char := subParenA none l

/-- Word-boundary test for the position just after a match: true at end of
text or before a non-word character. -/
def bdry : List Char → Bool
  | [] => true
  | d :: _ => !isWordCh d

/-- Scanner for `re.search(r"\b[a-z]{2,}\b", p)`: the match position is
the first index at a word boundary starting a maximal lowercase run of
length at least two that ends at a word boundary (only the maximal run
can satisfy the trailing `\b`, since shorter prefixes are followed by a
lowercase letter).  The `Bool` argument tracks whether the previous
character was a non-word character (or the start of the text). -/
def findLowAux : Bool → Nat → List Char → Option Nat
  | _, _, [] => none
  | b, i, c :: r =>
    if b && isLowerA c && decide (2 ≤ (List.takeWhile isLowerA (c :: r)).length)
        && bdry (List.dropWhile isLowerA (c :: r))
    then some i
    else findLowAux (!isWordCh c) (i + 1) r

def findLow (l : List Char) : Option Nat := findLowAux true 0 l

/-- The shared lowercase-descriptor truncation used by both the
Named-Candidate Extractor and the Token Normalizer:
`p[: low.start()].strip()` when the search succeeds, `p` unchanged
otherwise. -/
def truncLow (p : List Char) : List Char :=
  match findLow p with
  | some i => pyStrip (p.take i)
  | none => p

/-- The separator character class `[,/\\&]`. -/
def isSepCh (c : Char) : Bool := c = ',' || c = '/' || c = '\\' || c = '&'

/-- Case-insensitive test for the three letters of `and`. -/
def isAndCh (c n d : Char) : Bool :=
  (c = 'a' || c = 'A') && (n = 'n' || n = 'N') && (d = 'd' || d = 'D')

def consHead (c : Char) : List (List Char) → List (List Char)
  | [] => [[c]]
  | l :: ls => (c :: l) :: ls

/-- Scanner for `re.split(r"[,/\\&]|\band\b", inner, flags=re.IGNORECASE)`:
split at every separator character and at every word-bounded occurrence of
`and` (any case).  The `Bool` argument tracks whether the previous
character was a non-word character (or the start). -/
def splitSepA : Bool → List Char → List (List Char)
  | _, [] => [[]]
  | b, c :: r =>
    if isSepCh c then [] :: splitSepA true r
    else
      match r with
      | [] => consHead c (splitSepA (!isWordCh c) [])
      | [n] => consHead c (splitSepA (!isWordCh c) [n])
      | n :: d :: r3 =>
        if b && isAndCh c n d && bdry r3 then [] :: splitSepA false r3
        else consHead c (splitSepA (!isWordCh c) (n :: d :: r3))

def splitSep (l : List Char) : List (List Char) := splitSepA true l

/-- Scanner for `re.match(r"^([A-Z0-9'’\-]+(?:\s+[A-Z0-9'’\-]+)*)", p)`:
the longest prefix made of name-character runs joined by whitespace runs;
pending whitespace not followed by a name character is not part of the
match. -/
def leadAux (pend : List Char) : List Char → List Char
  | [] => []
  | c :: r =>
    if isNameCh c then pend ++ c :: leadAux [] r
    else if isPyWS c then leadAux (pend ++ [c]) r
    else []

def leadUpper : List Char → Option (List Char)
  | [] => none
  | c :: r => if isNameCh c then some (leadAux [] (c :: r)) else none

/-- Python `inner.split(",")`. -/
def splitComma : List Char → List (List Char)
  | [] => [[]]
  | c :: r =>
    if c = ',' then [] :: splitComma r
    else
      match splitComma r with
      | [] => [[c]]
      | l :: ls => (c :: l) :: ls

namespace NE

/-- One step of the `named_list` expansion loop:
`if n not in out_parts: out_parts.append(n)`. -/
def insertNew (out : List (List Char)) (n : List Char) : List (List Char) :=
  if n ∈ out then out else out ++ [n]

/-- The body of `normalize_token`'s `for p in parts` loop
(`normalize_and_extract.py` lines 88-115). -/
def procPartNorm (named : List (List Char)) (out : List (List Char)) (p : List Char) :
    List (List Char) :=
  let p0 := pyStrip (subParen p)
  if p0 = [] then out
  else
    let p1 := truncLow p0
    if p1 = [] then out
    else
      let up := upperStr p1
      if up = str "BOTH" || up = str "ALL" then List.foldl insertNew out named
      else
        match leadUpper up with
        | some m =>
          let name := pyStrip m
          if name ∈ out then out else out ++ [name]
        | none =>
          let cand := pyStrip up
          if cand = [] || cand ∈ out then out else out ++ [cand]

/-- `normalize_token(inner, named_list)` from `normalize_and_extract.py`. -/
def normalize_token (inner : List Char) (named : List (List Char)) : List Char :=
  let out := List.foldl (procPartNorm named) [] (splitSep inner)
  if out = [] then pyStrip inner else List.intercalate (str ", ") out

/-- The body of `extract_named_candidates`'s inner `for p in parts` loop
(`normalize_and_extract.py` lines 61-80). -/
def procPartExtract (out : List (List Char)) (p : List Char) : List (List Char) :=
  let p0 := pyStrip (subParen p)
  if p0 = [] then out
  else
    let p1 := truncLow p0
    match leadUpper p1 with
    | some m =>
      let cand := pyStrip m
      if cand = [] || cand ∈ out then out else out ++ [cand]
    | none =>
      let up := upperStr (pyStrip p1)
      if up = str "ALL" || up = str "BOTH" then
        if up ∈ out then out else out ++ [up]
      else out

/-- `extract_named_candidates(text)` from `normalize_and_extract.py`. -/
def extract_named_candidates (text : List Char) : List (List Char) :=
  List.foldl (fun names inner => List.foldl procPartExtract names (splitSep inner))
    [] ((scan text).1.map Prod.snd)

/-- The speaker list of a normalized token:
`[p.strip() for p in inner.split(",") if p.strip()]`. -/
def speakersOf (inner : List Char) : List (List Char) :=
  ((splitComma inner).map pyStrip).filter (· ≠ [])

/-- The segment list built from the scan of a text with at least one
annotation: segment `i` holds the text strictly between annotation `i`
and annotation `i+1` (the gap stored with the next scan pair), stripped;
the last segment holds the stripped trailing text. -/
def buildSegs : List (List Char × List Char) → List Char →
    List (List (List Char) × List Char)
  | [], _ => []
  | p :: rest, t =>
    (speakersOf p.2, match rest with | q :: _ => pyStrip q.1 | [] => pyStrip t)
      :: buildSegs rest t

/-- `parse_segments(text)` from `normalize_and_extract.py`. -/
def parse_segments (text : List Char) : List (List (List Char) × List Char) :=
  match scan text with
  | ([], _) => if pyStrip text = [] then [] else [([str "NARRATION"], pyStrip text)]
  | (p :: ps, t) => buildSegs (p :: ps) t

/-- The per-file rewrite performed by `normalize_file`: clean whitespace,
extract the candidate set from the cleaned text, then rewrite every
annotation through `normalize_token`. -/
def normalizedText (T : List Char) : List Char :=
  speakerSub (fun inner => normalize_token inner (extract_named_candidates (clean_whitespace T)))
    (clean_whitespace T)

/-- The per-character aggregation step of `extract_all`
(`normalize_and_extract.py` lines 183-189): segments with empty content
are skipped, each speaker key is title-cased, and contents are appended
to the key's list in a dict that keeps first-insertion key order. -/
def assocAppend : List (List Char × List (List Char)) → List Char → List Char →
    List (List Char × List (List Char))
  | [], k, v => [(k, [v])]
  | e :: rest, k, v =>
    if e.1 = k then (e.1, e.2 ++ [v]) :: rest else e :: assocAppend rest k v

/-- Python `str.title()` restricted to its ASCII behavior. -/
def pyTitleA : Bool → List Char → List Char
  | _, [] => []
  | prev, c :: r =>
    if c.isAlpha then (if prev then c.toLower else c.toUpper) :: pyTitleA true r
    else c :: pyTitleA false r

def pyTitle (l : List Char) : List Char := pyTitleA false l

def addSegment (acc : List (List Char × List (List Char)))
    (seg : List (List Char) × List Char) : List (List Char × List (List Char)) :=
  if seg.2 = [] then acc
  else List.foldl (fun a s => assocAppend a (pyTitle s) seg.2) acc seg.1

/-- Per-character aggregation: one row per distinct (title-cased) speaker,
its segments joined with a blank line (lines 183-193 of
`normalize_and_extract.py`). -/
def aggregatePerChar (segs : List (List (List Char) × List Char)) :
    List (List Char × List Char) :=
  (List.foldl addSegment [] segs).map fun e => (e.1, List.intercalate (str "\n\n") e.2)

end NE

namespace SC

/-- `re.sub(r"[&/|]", ",", inner)` from `segments_to_csv.py`. -/
def subAmpSlash (l : List Char) : List Char :=
  l.map fun c => if c = '&' || c = '/' || c = '|' then ',' else c

/-- `re.sub(r"\band\b", ",", s, flags=re.IGNORECASE)` as a boundary-aware
scan (same matching as `splitSepA`'s `and` alternative). -/
def subAndA : Bool → List Char → List Char
  | _, [] => []
  | b, c :: r =>
    match r with
    | [] => c :: subAndA (!isWordCh c) []
    | [n] => c :: subAndA (!isWordCh c) [n]
    | n :: d :: r3 =>
      if b && isAndCh c n d && bdry r3 then ',' :: subAndA false r3
      else c :: subAndA (!isWordCh c) (n :: d :: r3)

/-- `normalize_token(inner)` from `segments_to_csv.py`: context-free
normalization with no placeholder expansion. -/
def normalize_token (inner : List Char) : List Char :=
  let s := subAndA true (subAmpSlash inner)
  List.intercalate (str ", ") (((splitComma s).map pyStrip).filter (· ≠ []))

/-- The segment rows built from the scan of a text with at least one
annotation (one row per annotation, speaker field normalized). -/
def buildSegsCSV : List (List Char × List Char) → List Char →
    List (List Char × List Char)
  | [], _ => []
  | p :: rest, t =>
    (normalize_token p.2, match rest with | q :: _ => pyStrip q.1 | [] => pyStrip t)
      :: buildSegsCSV rest t

/-- `segments_from_text(text)` from `segments_to_csv.py`. -/
def segments_from_text (text : List Char) : List (List Char × List Char) :=
  match scan text with
  | ([], _) => if pyStrip text = [] then [] else [(str "NARRATION", pyStrip text)]
  | (p :: ps, t) => buildSegsCSV (p :: ps) t

end SC

/-- The reconstruction asserted by the specification's round-trip claim:
the rewritten annotations concatenated with the segment texts as the only
material between them. -/
def claimRecon (nt : List Char) : List Char :=
  (List.zipWith (fun inner seg => '[' :: inner ++ ']' :: seg)
    ((scan nt).1.map Prod.snd) ((NE.parse_segments nt).map Prod.snd)).flatten

/-- The raw (untrimmed) text spans following each annotation, in order:
for annotation `i` this is the gap stored with scan pair `i+1`, and the
trailing text for the last annotation. -/
def gapsAfter (ps : List (List Char × List Char)) (t : List Char) : List (List Char) :=
  (ps.map Prod.fst).drop 1 ++ [t]

/-- A separator between names inside one annotation, as allowed by the
refinement claim: comma, slash, ampersand, or the standalone word `and`. -/
inductive NameSep
  | comma
  | slash
  | amp
  | andw

def renderSep : NameSep → List Char
  | .comma => [',']
  | .slash => ['/']
  | .amp => ['&']
  | .andw => str " and "

/-- An annotation inner text built from a first name and further names
each preceded by a separator. -/
def innerOf (n0 : List Char) (rest : List (NameSep × List Char)) : List Char :=
  n0 ++ (rest.map fun p => renderSep p.1 ++ p.2).flatten

/-- No two adjacent spaces. -/
def noSpPair : List Char → Bool
  | [] => true
  | [_] => true
  | a :: b :: r => !(a = ' ' && b = ' ') && noSpPair (b :: r)

/-- A name as described by the refinement claim: nonempty, built only of
uppercase letters, digits, apostrophes and hyphens, with words separated
by single spaces. -/
def goodName (n : List Char) : Bool :=
  !n.isEmpty && n.all (fun c => isNameCh c || c = ' ') &&
    !(n.head? = some ' ') && !(n.getLast? = some ' ') && noSpPair n

/-- No word-bounded occurrence of `and`/`AND` (the condition added by the
amended refinement claim).  The scan mirrors the separator scanners: the
`Bool` argument is true when the previous character is absent or a
non-word character. -/
def noStandaloneAnd : Bool → List Char → Bool
  | _, [] => true
  | b, c :: r =>
    (match r with
     | n :: d :: r3 => !(b && isAndCh c n d && bdry r3)
     | _ => true) && noStandaloneAnd (!isWordCh c) r

/-- No two adjacent horizontal-whitespace characters (the fixed points of
the in-line collapse). -/
def noHWpairB : List Char → Bool
  | [] => true
  | [_] => true
  | a :: b :: r => !(isHWS a && isHWS b) && noHWpairB (b :: r)

/-- No three consecutive newlines (the fixed points of the blank-run
collapse). -/
def noNL3B : List Char → Bool
  | a :: b :: c :: r => !(a = '\n' && b = '\n' && c = '\n') && noNL3B (b :: c :: r)
  | _ => true

/-- In-line whitespace: a whitespace character other than a newline. -/
def isLineWS (c : Char) : Bool := isPyWS c && !(c = '\n')

/-- Character-level normal form of the per-line cleanup: no line ends in
in-line whitespace (no in-line whitespace sits before a newline or at the
end of the text) and no two adjacent horizontal-whitespace characters. -/
def linesFixedB : List Char → Bool
  | [] => true
  | [c] => !isLineWS c
  | a :: b :: r =>
    !(isHWS a && isHWS b) && !(isLineWS a && b = '\n') && linesFixedB (b :: r)

/-- Prepend a string to the first element of a split-part list. -/
def consAll (m : List Char) : List (List Char) → List (List Char)
  | [] => [m]
  | l :: ls => (m ++ l) :: ls

/-- The word-boundary state after scanning a string: the initial state if
it is empty, otherwise determined by its last character. -/
def endBdry (b : Bool) (m : List Char) : Bool :=
  match m.getLast? with
  | none => b
  | some c => !isWordCh c

/-- The raw part list both normalizers derive from an annotation built of
names and separators: separator characters split cleanly, while the
word separator `and` leaves one space attached to each neighbouring
part. -/
def sepParts (acc : List Char) : List (NameSep × List Char) → List (List Char)
  | [] => [acc]
  | (NameSep.andw, m) :: rest => (acc ++ [' ']) :: sepParts (' ' :: m) rest
  | (NameSep.comma, m) :: rest => acc :: sepParts m rest
  | (NameSep.slash, m) :: rest => acc :: sepParts m rest
  | (NameSep.amp, m) :: rest => acc :: sepParts m rest

/-- C7: for the input `"[ODYSSEUS, spoken] Hello\n[HERMES giggles] Hi there"`,
rewriting every annotation through the context-aware Token Normalizer with
the document's extracted candidate set yields the annotations `[ODYSSEUS]`
and `[HERMES]`, and per-segment segmentation of the rewritten text yields
exactly the records ("ODYSSEUS", "Hello") and ("HERMES", "Hi there"). -/
theorem c7_end_to_end :
    speakerSub
        (fun i => NE.normalize_token i
          (NE.extract_named_candidates (str "[ODYSSEUS, spoken] Hello\n[HERMES giggles] Hi there")))
        (str "[ODYSSEUS, spoken] Hello\n[HERMES giggles] Hi there")
      = str "[ODYSSEUS] Hello\n[HERMES] Hi there"
    ∧ SC.segments_from_text (str "[ODYSSEUS] Hello\n[HERMES] Hi there")
      = [(str "ODYSSEUS", str "Hello"), (str "HERMES", str "Hi there")] :=
  ⟨by decide, by decide⟩

/-- Counterexample to C1 as stated: for the text `"[A] Hello"`, gluing the
rewritten annotations to the segment texts with nothing else between them
gives `"[A]Hello"`, which is not the normalized text `"[A] Hello\n"` (the
whitespace trimmed from the segment is lost). -/
theorem c1_counterexample :
    claimRecon (NE.normalizedText (str "[A] Hello")) ≠ NE.normalizedText (str "[A] Hello")
    ∧ claimRecon (NE.normalizedText (str "[A] Hello")) = str "[A]Hello"
    ∧ NE.normalizedText (str "[A] Hello") = str "[A] Hello\n" :=
  ⟨by decide, by decide, by decide⟩

/-- Counterexample to C3 as stated: with an empty candidate set the inner
text `" BOTH "` produces an empty output list, and `normalize_token`
returns the *stripped* inner text `"BOTH"`, not the original untrimmed
inner text `" BOTH "`. -/
theorem c3_counterexample :
    NE.normalize_token (str " BOTH ") [] = str "BOTH" ∧ str "BOTH" ≠ str " BOTH " :=
  ⟨by decide, by decide⟩

/-- C3 amended: whenever processing all parts leaves the output list
empty, `normalize_token` returns the inner text stripped of leading and
trailing whitespace. -/
theorem c3_amended_fallback (inner : List Char) (named : List (List Char))
    (h : List.foldl (NE.procPartNorm named) [] (splitSep inner) = []) :
    NE.normalize_token inner named = pyStrip inner := by
  unfold NE.normalize_token
  rw [h]
  rfl

theorem c3_amended_witness :
    List.foldl (NE.procPartNorm []) [] (splitSep (str " BOTH ")) = []
    ∧ NE.normalize_token (str " BOTH ") [] = pyStrip (str " BOTH ") :=
  ⟨by decide, c3_amended_fallback (str " BOTH ") [] (by decide)⟩

/-- Counterexample to C4 as stated: the part `"Xab"` contains the run
`"ab"` of two lowercase letters, yet the truncation regex
`\b[a-z]{2,}\b` does not match (no word boundary before the run), so the
part is not truncated: the Token Normalizer yields `"XAB"`, not `"X"`. -/
theorem c4_counterexample :
    truncLow (str "Xab") = str "Xab"
    ∧ NE.normalize_token (str "Xab") [] = str "XAB"
    ∧ str "XAB" ≠ str "X" :=
  ⟨by decide, by decide, by decide⟩

/-- Counterexample to C5 as stated: `"a\n\n\nb"` contains a run of exactly
two blank lines, which the claim says is left unchanged, but
`clean_whitespace` collapses the three newlines to two, i.e. the two blank
lines become one. -/
theorem c5_counterexample :
    clean_whitespace (str "a\n\n\nb") = str "a\n\nb\n"
    ∧ str "a\n\nb\n" ≠ str "a\n\n\nb\n" :=
  ⟨by decide, by decide⟩

/-- Counterexample to C9 as stated: over arbitrary segment lists the
per-character aggregation skips only segments whose text is the empty
string; the segment text `" "` is empty after trimming yet still produces
a record for speaker `"A"`. -/
theorem c9_counterexample :
    pyStrip (str " ") = []
    ∧ NE.aggregatePerChar [([str "A"], str " ")] = [(str "A", str " ")]
    ∧ NE.aggregatePerChar [([str "A"], str " ")] ≠ [] :=
  ⟨by decide, by decide, by decide⟩

/-- Counterexample to C10 as stated: the inner text `"AND"` is a single
nonempty name of uppercase letters, but the context-aware normalizer
splits it away as a word-bounded `and` separator, leaving only empty
parts, and falls back to the stripped inner text `"AND"`, while the
context-free normalizer returns the empty string. -/
theorem c10_counterexample :
    NE.normalize_token (str "AND") [] = str "AND"
    ∧ SC.normalize_token (str "AND") = []
    ∧ NE.normalize_token (str "AND") [] ≠ SC.normalize_token (str "AND") :=
  ⟨by decide, by decide, by decide⟩

/-- C2: whenever an annotation part reduces, after parenthetical
stripping, descriptor truncation and uppercasing, to `"BOTH"` or `"ALL"`,
the Token Normalizer's part step appends every entry of the candidate set
in stored order, skipping entries already present (the fold with
`insertNew`); and on the concrete document candidate set
["ODYSSEUS", "PENELOPE"] the inner text `"BOTH"` normalizes to
`"ODYSSEUS, PENELOPE"`. -/
theorem c2_collective_expansion :
    (∀ (named out : List (List Char)) (p : List Char),
        (upperStr (truncLow (pyStrip (subParen p))) = str "BOTH"
          ∨ upperStr (truncLow (pyStrip (subParen p))) = str "ALL") →
        NE.procPartNorm named out p = List.foldl NE.insertNew out named)
    ∧ NE.normalize_token (str "BOTH") [str "ODYSSEUS", str "PENELOPE"]
        = str "ODYSSEUS, PENELOPE" := by
  constructor
  · intro named out p h
    unfold NE.procPartNorm
    by_cases h0 : pyStrip (subParen p) = []
    · rw [h0] at h
      exact absurd h (by decide)
    · rw [if_neg h0]
      by_cases h1 : truncLow (pyStrip (subParen p)) = []
      · rw [h1] at h
        exact absurd h (by decide)
      · rw [if_neg h1]
        rcases h with h2 | h2 <;> simp [h2]
  · decide

theorem c2_witness :
    NE.procPartNorm [str "X", str "Y"] [str "Y"] (str " BOTH (laughs) ")
      = [str "Y", str "X"] :=
  ((c2_collective_expansion.1 [str "X", str "Y"] [str "Y"] (str " BOTH (laughs) ")
    (by decide)).trans (by decide))

/-- C8: for a text containing no bracket annotation, both segmenters
return a single segment attributed to the sentinel speaker `"NARRATION"`
carrying the trimmed text when that is nonempty, and no segment at all
when the text trims to nothing. -/
theorem c8_narration_fallback (t : List Char) (h : (scan t).1 = []) :
    NE.parse_segments t
      = (if pyStrip t = [] then [] else [([str "NARRATION"], pyStrip t)])
    ∧ SC.segments_from_text t
      = (if pyStrip t = [] then [] else [(str "NARRATION", pyStrip t)]) := by
  have e : scan t = ([], (scan t).2) := by
    rw [← h]
  constructor
  · unfold NE.parse_segments
    rw [e]
  · unfold SC.segments_from_text
    rw [e]

theorem c8_witness :
    (NE.parse_segments (str "  la la  ")
      = (if pyStrip (str "  la la  ") = [] then []
         else [([str "NARRATION"], pyStrip (str "  la la  "))])
    ∧ SC.segments_from_text (str "  la la  ")
      = (if pyStrip (str "  la la  ") = [] then []
         else [(str "NARRATION", pyStrip (str "  la la  "))])) :=
  c8_narration_fallback (str "  la la  ") (by decide)

theorem consGap_recon (c : Char) (x : List (List Char × List Char) × List Char) :
    recon (consGap c x) = c :: recon x := by
  rcases x with ⟨ps, t⟩
  cases ps with
  | nil => rfl
  | cons p ps' =>
    rcases p with ⟨g, i⟩
    simp [consGap, recon]

theorem scanA_recon (s : List Char) : ∀ st : Option (List Char),
    recon (scanA st s) =
      (match st with | none => [] | some buf => '[' :: buf.reverse) ++ s := by
  induction s with
  | nil =>
    intro st
    cases st with
    | none => rfl
    | some buf => simp [scanA, recon]
  | cons c r ih =>
    intro st
    cases st with
    | none =>
      by_cases hc : c = '['
      · simp only [scanA, if_pos hc, ih (some [])]
        simp [hc]
      · simp only [scanA, if_neg hc, consGap_recon, ih none]
        rfl
    | some buf =>
      by_cases hc : c = ']'
      · by_cases hb : buf = []
        · simp only [scanA, if_pos hc, if_pos hb, consGap_recon, ih none]
          simp [hb, hc]
        · simp only [scanA, if_pos hc, if_neg hb]
          have : recon (([], buf.reverse) :: (scanA none r).1, (scanA none r).2)
              = ('[' :: buf.reverse ++ [']']) ++ recon (scanA none r) := by
            simp [recon]
          rw [this, ih none]
          simp [hc]
      · simp only [scanA, if_neg hc, ih (some (c :: buf))]
        simp

/-- The scan of a text reconstructs it exactly. -/
theorem scan_recon (s : List Char) : recon (scan s) = s := by
  simpa using scanA_recon s none

theorem buildSegs_snd (p : List Char × List Char) (t : List Char) :
    ∀ ps, (NE.buildSegs (p :: ps) t).map Prod.snd = (gapsAfter (p :: ps) t).map pyStrip := by
  intro ps
  induction ps generalizing p with
  | nil => rfl
  | cons q rest ih =>
    simp only [NE.buildSegs, List.map_cons, gapsAfter] at ih ⊢
    rw [ih q]
    simp [gapsAfter]

/-- C1 amended: scanning the token-rewritten normalized text partitions it
exactly — the gaps before each annotation together with the bracketed
annotations and the trailing text reconstruct the rewritten text, so the
segments are non-overlapping and in document order — and each segment's
text is the whitespace-trim of the raw span following its annotation
(text before the first annotation is dropped and trimmed whitespace is
not recoverable, which is all the original claim's exact-reconstruction
statement fails on). -/
theorem c1_amended_reconstruction (T : List Char) :
    recon (scan (NE.normalizedText T)) = NE.normalizedText T
    ∧ ((scan (NE.normalizedText T)).1 ≠ [] →
        (NE.parse_segments (NE.normalizedText T)).map Prod.snd
          = (gapsAfter (scan (NE.normalizedText T)).1
              (scan (NE.normalizedText T)).2).map pyStrip) := by
  refine ⟨scan_recon _, ?_⟩
  intro h
  rcases e : scan (NE.normalizedText T) with ⟨ps, t⟩
  rw [e] at h
  unfold NE.parse_segments
  rw [e]
  cases ps with
  | nil => exact absurd rfl h
  | cons p ps' => exact buildSegs_snd p t ps'

theorem c1_amended_witness :
    (NE.parse_segments (NE.normalizedText (str "x[A] hi[B]"))).map Prod.snd
      = (gapsAfter (scan (NE.normalizedText (str "x[A] hi[B]"))).1
          (scan (NE.normalizedText (str "x[A] hi[B]"))).2).map pyStrip :=
  (c1_amended_reconstruction (str "x[A] hi[B]")).2 (by decide)

theorem lower_word {c : Char} (h : isLowerA c = true) : isWordCh c = true := by
  unfold isWordCh
  rw [h]
  rfl

theorem takeWhile_append_stop (p : Char → Bool) (l1 l2 : List Char)
    (h : l1.dropWhile p ≠ []) :
    (l1 ++ l2).takeWhile p = l1.takeWhile p
    ∧ (l1 ++ l2).dropWhile p = l1.dropWhile p ++ l2 := by
  induction l1 with
  | nil => exact absurd rfl h
  | cons c r ih =>
    by_cases hc : p c
    · simp only [List.dropWhile_cons, hc, if_true] at h
      simp only [List.cons_append, List.takeWhile_cons, List.dropWhile_cons, hc, if_true,
        ite_true]
      exact ⟨by rw [(ih h).1], (ih h).2⟩
    · simp [List.takeWhile_cons, List.dropWhile_cons, hc]

theorem takeWhile_append_all (p : Char → Bool) (l1 l2 : List Char)
    (h : l1.all p = true) :
    (l1 ++ l2).takeWhile p = l1 ++ l2.takeWhile p
    ∧ (l1 ++ l2).dropWhile p = l2.dropWhile p := by
  induction l1 with
  | nil => simp
  | cons c r ih =>
    simp only [List.all_cons, Bool.and_eq_true] at h
    simp [List.takeWhile_cons, List.dropWhile_cons, h.1, (ih h.2).1, (ih h.2).2]

theorem mem_of_getLast?_eq {α : Type} : ∀ {l : List α} {z : α}, l.getLast? = some z → z ∈ l := by
  intro l
  induction l with
  | nil =>
    intro z h
    simp at h
  | cons c r ih =>
    intro z h
    cases r with
    | nil =>
      simp only [List.getLast?_singleton, Option.some.injEq] at h
      simp [h]
    | cons x xs =>
      rw [List.getLast?_cons_cons] at h
      exact List.mem_cons_of_mem _ (ih h)

theorem findLowAux_cons (b : Bool) (i : Nat) (c : Char) (r : List Char) :
    findLowAux b i (c :: r) =
      if (b && isLowerA c && decide (2 ≤ (List.takeWhile isLowerA (c :: r)).length)
          && bdry (List.dropWhile isLowerA (c :: r))) = true
      then some i else findLowAux (!isWordCh c) (i + 1) r := rfl

theorem findLowAux_append (rest : List Char) (a : List Char) :
    ∀ (b0 : Bool) (i : Nat),
      (∀ z, a.getLast? = some z → isWordCh z = false) →
      findLowAux b0 i a = none →
      findLowAux b0 i (a ++ rest) =
        findLowAux (match a.getLast? with | none => b0 | some z => !isWordCh z)
          (i + a.length) rest := by
  induction a with
  | nil =>
    intro b0 i _ _
    simp
  | cons c a' ih =>
    intro b0 i hlast hnone
    have hdrop : (c :: a').dropWhile isLowerA ≠ [] := by
      intro hd
      rw [List.dropWhile_eq_nil_iff] at hd
      rcases e : (c :: a').getLast? with _ | z
      · simp [List.getLast?_cons] at e
      · have hz := lower_word (hd z (mem_of_getLast?_eq e))
        rw [hlast z e] at hz
        exact absurd hz (by decide)
    have hsplit := takeWhile_append_stop isLowerA (c :: a') rest hdrop
    have e2 : (c :: a') ++ rest = c :: (a' ++ rest) := rfl
    rw [e2] at hsplit
    rw [List.cons_append, findLowAux_cons, hsplit.1, hsplit.2]
    have hbd : bdry ((c :: a').dropWhile isLowerA ++ rest)
        = bdry ((c :: a').dropWhile isLowerA) := by
      rcases e : (c :: a').dropWhile isLowerA with _ | ⟨d, r2⟩
      · exact absurd e hdrop
      · rfl
    rw [hbd]
    rw [findLowAux_cons] at hnone
    by_cases t : (b0 && isLowerA c
        && decide (2 ≤ (List.takeWhile isLowerA (c :: a')).length)
        && bdry (List.dropWhile isLowerA (c :: a'))) = true
    · rw [if_pos t] at hnone
      exact absurd hnone (by simp)
    · rw [if_neg t] at hnone ⊢
      have hlast' : ∀ z, a'.getLast? = some z → isWordCh z = false := by
        intro z hz
        cases a' with
        | nil => simp at hz
        | cons x xs => exact hlast z (by rw [List.getLast?_cons_cons]; exact hz)
      rw [ih (!isWordCh c) (i + 1) hlast' hnone]
      cases a' with
      | nil => simp
      | cons x xs =>
        rw [List.getLast?_cons_cons]
        have harith : i + 1 + (x :: xs).length = i + (c :: x :: xs).length := by
          simp only [List.length_cons]
          omega
        rw [harith]
        rcases e : (x :: xs).getLast? with _ | z
        · rw [List.getLast?_eq_none_iff] at e
          exact absurd e (by simp)
        · rfl

/-- C4 amended: the lowercase-descriptor truncation (shared by the
Named-Candidate Extractor and the Token Normalizer through `truncLow`)
truncates a part at the start of the first maximal run of two-or-more
lowercase letters that is preceded by the start of the part or a non-word
character and followed by the end of the part or a non-word character,
keeping (stripped) only the text strictly before the run; a bare lowercase
run without these word boundaries does not trigger truncation. -/
theorem c4_amended_truncation (a r b : List Char)
    (hr : r.all isLowerA = true) (hlen : 2 ≤ r.length)
    (ha : bdry a.reverse = true) (hb : bdry b = true)
    (hnone : findLow a = none) :
    truncLow (a ++ (r ++ b)) = pyStrip a := by
  have hlast : ∀ z, a.getLast? = some z → isWordCh z = false := by
    intro z hz
    rcases e : a.reverse with _ | ⟨d, t⟩
    · rw [← List.head?_reverse, e] at hz
      simp at hz
    · rw [← List.head?_reverse, e] at hz
      simp only [List.head?_cons, Option.some.injEq] at hz
      rw [e] at ha
      unfold bdry at ha
      rw [← hz]
      simpa using ha
  have hbtake : b.takeWhile isLowerA = [] ∧ b.dropWhile isLowerA = b := by
    cases b with
    | nil => simp
    | cons d t =>
      have hb' : (!isWordCh d) = true := hb
      have hd : isLowerA d = false := by
        by_cases hcl : isLowerA d = true
        · rw [lower_word hcl] at hb'
          exact absurd hb' (by decide)
        · simpa using hcl
      simp [List.takeWhile_cons, List.dropWhile_cons, hd]
  have hfind : findLow (a ++ (r ++ b)) = some a.length := by
    unfold findLow at hnone ⊢
    rw [findLowAux_append (r ++ b) a true 0 hlast hnone]
    have hend : (match a.getLast? with | none => true | some z => !isWordCh z) = true := by
      rcases e : a.getLast? with _ | z
      · rfl
      · simp [hlast z e]
    rw [hend]
    cases r with
    | nil => simp at hlen
    | cons c0 r' =>
      rw [List.cons_append, findLowAux_cons]
      have hsplit := takeWhile_append_all isLowerA (c0 :: r') b hr
      rw [List.cons_append] at hsplit
      have hc0 : isLowerA c0 = true := by
        simp only [List.all_cons, Bool.and_eq_true] at hr
        exact hr.1
      have htest : (true && isLowerA c0
          && decide (2 ≤ (List.takeWhile isLowerA (c0 :: (r' ++ b))).length)
          && bdry (List.dropWhile isLowerA (c0 :: (r' ++ b)))) = true := by
        rw [hsplit.1, hsplit.2, hbtake.1, hbtake.2, hc0]
        simp only [List.append_nil]
        rw [decide_eq_true hlen, hb]
        rfl
      rw [if_pos htest]
      simp
  unfold truncLow
  rw [hfind]
  show pyStrip (List.take a.length (a ++ (r ++ b))) = pyStrip a
  rw [List.take_left]

theorem c4_amended_witness :
    truncLow (str "HERMES " ++ (str "giggles" ++ [])) = pyStrip (str "HERMES ") :=
  c4_amended_truncation (str "HERMES ") (str "giggles") []
    (by decide) (by decide) (by decide) (by decide) (by decide)

theorem cnla_false_singleton (x : Char) : collapseNLA false [x] = [x] := rfl

theorem cnla_false_pair (x y : Char) : collapseNLA false [x, y] = [x, y] := rfl

theorem cnla_true_nl (l : List Char) : collapseNLA true ('\n' :: l) = collapseNLA true l := by
  simp [collapseNLA]

theorem cnla_true_ne {x : Char} (hx : x ≠ '\n') (l : List Char) :
    collapseNLA true (x :: l) = x :: collapseNLA false l := by
  simp [collapseNLA, hx]

theorem cnla_false_ne {x : Char} (hx : x ≠ '\n') (l : List Char) :
    collapseNLA false (x :: l) = x :: collapseNLA false l := by
  cases l with
  | nil => rfl
  | cons y l' =>
    cases l' with
    | nil => rfl
    | cons z l'' => simp [collapseNLA, hx]

theorem cnla_false_nl1 {y : Char} (hy : y ≠ '\n') (l : List Char) :
    collapseNLA false ('\n' :: y :: l) = '\n' :: collapseNLA false (y :: l) := by
  cases l with
  | nil => simp [collapseNLA, hy]
  | cons z l' => simp [collapseNLA, hy]

theorem cnla_false_nl2 {z : Char} (hz : z ≠ '\n') (l : List Char) :
    collapseNLA false ('\n' :: '\n' :: z :: l)
      = '\n' :: '\n' :: collapseNLA false (z :: l) := by
  simp [collapseNLA, hz]

theorem cnla_false_nl3 (l : List Char) :
    collapseNLA false ('\n' :: '\n' :: '\n' :: l)
      = '\n' :: '\n' :: collapseNLA true ('\n' :: l) := by
  simp [collapseNLA]

theorem collapseHom (b : List Char) :
    ∀ (n : Nat) (a : List Char), a.length ≤ n → a.getLast? ≠ some '\n' →
      (collapseNLA false (a ++ b) = collapseNLA false a ++ collapseNLA false b)
      ∧ (a ≠ [] → collapseNLA true (a ++ b) = collapseNLA true a ++ collapseNLA false b) := by
  intro n
  induction n with
  | zero =>
    intro a hlen hlast
    have : a = [] := List.length_eq_zero.mp (Nat.le_zero.mp hlen)
    subst this
    exact ⟨rfl, fun h => absurd rfl h⟩
  | succ n ih =>
    intro a hlen hlast
    cases a with
    | nil => exact ⟨rfl, fun h => absurd rfl h⟩
    | cons x rest =>
      have hlenr : rest.length ≤ n := by
        simp only [List.length_cons] at hlen
        omega
      have hlastr : rest ≠ [] → rest.getLast? ≠ some '\n' := by
        intro hne
        cases rest with
        | nil => exact absurd rfl hne
        | cons y t =>
          rw [List.getLast?_cons_cons] at hlast
          exact hlast
      have hlastr' : rest.getLast? ≠ some '\n' := by
        cases rest with
        | nil => simp
        | cons y t => exact hlastr (by simp)
      constructor
      · by_cases hx : x = '\n'
        · subst hx
          cases rest with
          | nil => exact absurd hlast (by simp)
          | cons y rest2 =>
            by_cases hy : y = '\n'
            · subst hy
              cases rest2 with
              | nil => exact absurd hlast (by simp)
              | cons z rest3 =>
                by_cases hz : z = '\n'
                · subst hz
                  have hr3 : rest3 ≠ [] := by
                    intro h0
                    subst h0
                    exact absurd hlast (by simp)
                  have hlast3 : rest3.getLast? ≠ some '\n' := by
                    cases rest3 with
                    | nil => exact absurd rfl hr3
                    | cons w t =>
                      simp only [List.getLast?_cons_cons] at hlast ⊢
                      exact hlast
                  have hlen3 : rest3.length ≤ n := by
                    simp only [List.length_cons] at hlen
                    omega
                  have htr := (ih rest3 hlen3 hlast3).2 hr3
                  simp only [List.cons_append]
                  rw [cnla_false_nl3, cnla_true_nl, cnla_false_nl3, cnla_true_nl, htr]
                  simp
                · have hlen2 : (z :: rest3).length ≤ n := by
                    simp only [List.length_cons] at hlen ⊢
                    omega
                  have hlast2 : (z :: rest3).getLast? ≠ some '\n' := by
                    simpa only [List.getLast?_cons_cons] using hlast
                  have hf := (ih (z :: rest3) hlen2 hlast2).1
                  simp only [List.cons_append] at hf ⊢
                  rw [cnla_false_nl2 hz, cnla_false_nl2 hz, hf]
                  simp
            · have hlen2 : (y :: rest2).length ≤ n := by
                simp only [List.length_cons] at hlen ⊢
                omega
              have hlast2 : (y :: rest2).getLast? ≠ some '\n' := by
                simpa only [List.getLast?_cons_cons] using hlast
              have hf := (ih (y :: rest2) hlen2 hlast2).1
              simp only [List.cons_append] at hf ⊢
              rw [cnla_false_nl1 hy, cnla_false_nl1 hy, hf]
              simp
        · have hf := (ih rest hlenr hlastr').1
          simp only [List.cons_append]
          rw [cnla_false_ne hx, cnla_false_ne hx, hf]
          simp
      · intro _
        by_cases hx : x = '\n'
        · subst hx
          have hr : rest ≠ [] := by
            intro h0
            subst h0
            exact absurd hlast (by simp)
          have ht := (ih rest hlenr (hlastr hr)).2 hr
          simp only [List.cons_append]
          rw [cnla_true_nl, cnla_true_nl, ht]
        · have hf := (ih rest hlenr hlastr').1
          simp only [List.cons_append]
          rw [cnla_true_ne hx, cnla_true_ne hx, hf]
          simp

theorem cnla_trueDrop (b : List Char) (hb : b.head? ≠ some '\n') :
    ∀ m, collapseNLA true (List.replicate m '\n' ++ b) = collapseNLA false b := by
  intro m
  induction m with
  | zero =>
    cases b with
    | nil => rfl
    | cons d t =>
      have hd : d ≠ '\n' := by
        intro h0
        rw [h0] at hb
        exact hb (by simp)
      simp only [List.replicate, List.nil_append]
      rw [cnla_true_ne hd, cnla_false_ne hd]
  | succ m ih =>
    simp only [List.replicate_succ, List.cons_append]
    rw [cnla_true_nl]
    exact ih

theorem cnla_falseRep (b : List Char) (hb : b.head? ≠ some '\n') :
    ∀ k, collapseNLA false (List.replicate k '\n' ++ b)
      = List.replicate (min k 2) '\n' ++ collapseNLA false b := by
  intro k
  have hd : ∀ d t, b = d :: t → d ≠ '\n' := by
    intro d t he h0
    rw [he, h0] at hb
    exact hb (by simp)
  match k with
  | 0 => simp
  | 1 =>
    simp only [List.replicate_succ, List.replicate_zero, List.cons_append, List.nil_append]
    cases b with
    | nil => rfl
    | cons d t =>
      rw [cnla_false_nl1 (hd d t rfl)]
      rw [cnla_false_ne (hd d t rfl)]
      rfl
  | 2 =>
    simp only [List.replicate_succ, List.replicate_zero, List.cons_append, List.nil_append]
    cases b with
    | nil => rfl
    | cons d t =>
      rw [cnla_false_nl2 (hd d t rfl)]
      rw [cnla_false_ne (hd d t rfl)]
      rfl
  | (m + 3) =>
    simp only [List.replicate_succ, List.cons_append]
    rw [cnla_false_nl3]
    rw [show ('\n' :: (List.replicate m '\n' ++ b))
          = List.replicate (m + 1) '\n' ++ b by simp [List.replicate_succ]]
    rw [cnla_trueDrop b hb (m + 1)]
    have : min (m + 3) 2 = 2 := by omega
    rw [this]
    rfl

/-- C5 amended: the blank-run collapse step of the Whitespace Normalizer
(`re.sub(r"\n{3,}", "\n\n", ...)` embedded as `collapseNL`) maps each
maximal run of `k` consecutive newline characters to `min k 2` newlines:
runs of three or more newlines (two or more blank lines) become exactly
two newlines (one blank line), while runs of one or two newlines (no or
one blank line) are unchanged.  Maximality is expressed by requiring the
context `a` not to end, and `b` not to begin, with a newline. -/
theorem c5_amended_collapse (a b : List Char) (k : Nat)
    (ha : a.getLast? ≠ some '\n') (hb : b.head? ≠ some '\n') :
    collapseNL (a ++ (List.replicate k '\n' ++ b))
      = collapseNL a ++ (List.replicate (min k 2) '\n' ++ collapseNL b) := by
  unfold collapseNL
  rw [(collapseHom (List.replicate k '\n' ++ b) a.length a le_rfl ha).1,
      cnla_falseRep b hb k]

theorem c5_amended_witness :
    collapseNL (str "x" ++ (List.replicate 5 '\n' ++ str "y"))
      = collapseNL (str "x") ++ (List.replicate (min 5 2) '\n' ++ collapseNL (str "y")) :=
  c5_amended_collapse (str "x") (str "y") 5 (by decide) (by decide)

theorem assoc_keys (key v : List Char) :
    ∀ (acc : List (List Char × List (List Char))) (k : List Char),
      k ∈ (NE.assocAppend acc key v).map Prod.fst
        ↔ (k ∈ acc.map Prod.fst ∨ k = key) := by
  intro acc
  induction acc with
  | nil =>
    intro k
    simp [NE.assocAppend]
  | cons e rest ih =>
    intro k
    by_cases he : e.1 = key
    · simp only [NE.assocAppend, if_pos he, List.map_cons, List.mem_cons]
      constructor
      · rintro (h1 | h2)
        · exact Or.inl (Or.inl h1)
        · exact Or.inl (Or.inr h2)
      · rintro ((h1 | h2) | h3)
        · exact Or.inl h1
        · exact Or.inr h2
        · exact Or.inl (by rw [h3, ← he])
    · simp only [NE.assocAppend, if_neg he, List.map_cons, List.mem_cons]
      rw [ih k]
      tauto

theorem foldAdd_keys (c : List Char) :
    ∀ (sp : List (List Char)) (acc : List (List Char × List (List Char))) (k : List Char),
      k ∈ (List.foldl (fun a s => NE.assocAppend a (NE.pyTitle s) c) acc sp).map Prod.fst
        ↔ (k ∈ acc.map Prod.fst ∨ k ∈ sp.map NE.pyTitle) := by
  intro sp
  induction sp with
  | nil =>
    intro acc k
    simp
  | cons s rest ih =>
    intro acc k
    simp only [List.foldl_cons]
    rw [ih, assoc_keys]
    simp only [List.map_cons, List.mem_cons]
    tauto

theorem foldSeg_keys :
    ∀ (segs : List (List (List Char) × List Char))
      (acc : List (List Char × List (List Char))) (k : List Char),
      k ∈ (List.foldl NE.addSegment acc segs).map Prod.fst
        ↔ (k ∈ acc.map Prod.fst ∨ ∃ p, p ∈ segs ∧ p.2 ≠ [] ∧ k ∈ p.1.map NE.pyTitle) := by
  intro segs
  induction segs with
  | nil =>
    intro acc k
    simp
  | cons p rest ih =>
    intro acc k
    simp only [List.foldl_cons]
    rw [ih]
    unfold NE.addSegment
    by_cases hp : p.2 = []
    · rw [if_pos hp]
      constructor
      · rintro (h | ⟨q, hq, hne, hk⟩)
        · exact Or.inl h
        · exact Or.inr ⟨q, List.mem_cons_of_mem _ hq, hne, hk⟩
      · rintro (h | ⟨q, hq, hne, hk⟩)
        · exact Or.inl h
        · rcases List.mem_cons.mp hq with rfl | hq'
          · exact absurd hp hne
          · exact Or.inr ⟨q, hq', hne, hk⟩
    · rw [if_neg hp]
      rw [foldAdd_keys]
      constructor
      · rintro ((h | h) | ⟨q, hq, hne, hk⟩)
        · exact Or.inl h
        · exact Or.inr ⟨p, List.mem_cons_self _ _, hp, h⟩
        · exact Or.inr ⟨q, List.mem_cons_of_mem _ hq, hne, hk⟩
      · rintro (h | ⟨q, hq, hne, hk⟩)
        · exact Or.inl (Or.inl h)
        · rcases List.mem_cons.mp hq with rfl | hq'
          · exact Or.inl (Or.inr hk)
          · exact Or.inr ⟨q, hq', hne, hk⟩

theorem buildSegsCSV_length :
    ∀ (ps : List (List Char × List Char)) (t : List Char),
      (SC.buildSegsCSV ps t).length = ps.length := by
  intro ps
  induction ps with
  | nil => intro t; rfl
  | cons p rest ih =>
    intro t
    simp only [SC.buildSegsCSV, List.length_cons]
    rw [ih]

/-- C9 amended: over segment lists whose texts are already trimmed (as the
Segmenter produces them), per-character aggregation emits a record for a
title-cased speaker exactly when some segment with non-empty (after
trimming) text names that speaker — so empty segments are skipped and a
speaker all of whose segments are empty gets no record — while per-segment
mode emits one record per annotation, empty-text segments included. -/
theorem c9_amended_aggregation (segs : List (List (List Char) × List Char))
    (h : ∀ p ∈ segs, pyStrip p.2 = p.2) :
    (∀ k, k ∈ (NE.aggregatePerChar segs).map Prod.fst
        ↔ ∃ p, p ∈ segs ∧ pyStrip p.2 ≠ [] ∧ k ∈ p.1.map NE.pyTitle)
    ∧ (∀ t, (scan t).1 ≠ [] →
        (SC.segments_from_text t).length = (scan t).1.length) := by
  constructor
  · intro k
    have hkeys : (NE.aggregatePerChar segs).map Prod.fst
        = (List.foldl NE.addSegment [] segs).map Prod.fst := by
      unfold NE.aggregatePerChar
      rw [List.map_map]
      rfl
    rw [hkeys, foldSeg_keys segs [] k]
    constructor
    · rintro (h0 | ⟨q, hq, hne, hk⟩)
      · simp at h0
      · refine ⟨q, hq, ?_, hk⟩
        rw [h q hq]
        exact hne
    · rintro ⟨q, hq, hne, hk⟩
      refine Or.inr ⟨q, hq, ?_, hk⟩
      rw [← h q hq]
      exact hne
  · intro t ht
    rcases e : scan t with ⟨ps, tr⟩
    rw [e] at ht
    unfold SC.segments_from_text
    rw [e]
    cases ps with
    | nil => exact absurd rfl ht
    | cons p ps' =>
      exact buildSegsCSV_length (p :: ps') tr

theorem c9_amended_witness :
    (SC.segments_from_text (str "[A] x[B]")).length = (scan (str "[A] x[B]")).1.length :=
  (c9_amended_aggregation [([str "A"], str "x")] (by decide)).2 (str "[A] x[B]") (by decide)

theorem replaceCRLF_id : ∀ {l : List Char}, '\r' ∉ l → replaceCRLF l = l := by
  intro l
  induction l with
  | nil => intro _; rfl
  | cons c r ih =>
    intro h
    cases r with
    | nil => rfl
    | cons d r2 =>
      have hc : c ≠ '\r' := fun h0 => h (h0 ▸ List.mem_cons_self c _)
      have hcond : (c = '\r' && d = '\n') = false := by
        simp [hc]
      unfold replaceCRLF
      rw [hcond]
      simp only [Bool.false_eq_true, if_false]
      rw [ih fun hm => h (List.mem_cons_of_mem _ hm)]

theorem replaceCR_id {l : List Char} (h : '\r' ∉ l) : replaceCR l = l := by
  induction l with
  | nil => rfl
  | cons c r ih =>
    have hc : c ≠ '\r' := fun h0 => h (h0 ▸ List.mem_cons_self c _)
    unfold replaceCR at ih ⊢
    simp only [List.map_cons, if_neg hc]
    rw [ih fun hm => h (List.mem_cons_of_mem _ hm)]

theorem replaceCR_no_cr (l : List Char) : '\r' ∉ replaceCR l := by
  intro h
  rcases List.mem_map.mp h with ⟨a, _, ha⟩
  by_cases h0 : a = '\r' <;> simp [h0] at ha

theorem dropWhile_head_false {p : Char → Bool} {l : List Char} {d : Char} {t : List Char}
    (e : l.dropWhile p = d :: t) : p d = false := by
  have := List.head?_dropWhile_not p l
  rw [e] at this
  simpa using this

theorem dropWhile_idem (p : Char → Bool) (l : List Char) :
    (l.dropWhile p).dropWhile p = l.dropWhile p := by
  rcases e : l.dropWhile p with _ | ⟨d, t⟩
  · rfl
  · rw [List.dropWhile_cons, dropWhile_head_false e]
    simp

theorem pyRStrip_last {l : List Char} :
    ∀ z, (pyRStrip l).getLast? = some z → isPyWS z = false := by
  intro z hz
  unfold pyRStrip at hz
  rw [List.getLast?_reverse] at hz
  rcases e : l.reverse.dropWhile isPyWS with _ | ⟨d, t⟩
  · rw [e] at hz
    simp at hz
  · rw [e] at hz
    simp only [List.head?_cons, Option.some.injEq] at hz
    rw [← hz]
    exact dropWhile_head_false e

theorem pyRStrip_id {l : List Char}
    (h : ∀ z, l.getLast? = some z → isPyWS z = false) : pyRStrip l = l := by
  unfold pyRStrip
  rcases e : l.reverse with _ | ⟨d, t⟩
  · rw [List.dropWhile_nil]
    rw [← e, List.reverse_reverse]
  · have hd : isPyWS d = false := by
      apply h
      rw [← List.head?_reverse, e]
      rfl
    rw [List.dropWhile_cons, hd]
    simp only [Bool.false_eq_true, if_false]
    rw [← e, List.reverse_reverse]

theorem pyRStrip_mem {c : Char} {l : List Char} (h : c ∈ pyRStrip l) : c ∈ l := by
  unfold pyRStrip at h
  rw [List.mem_reverse] at h
  exact List.mem_reverse.mp (List.Sublist.mem h (List.dropWhile_sublist _))

theorem pyLStrip_mem {c : Char} {l : List Char} (h : c ∈ pyLStrip l) : c ∈ l :=
  List.Sublist.mem h (List.dropWhile_sublist _)

theorem pyStrip_mem {c : Char} {l : List Char} (h : c ∈ pyStrip l) : c ∈ l :=
  pyRStrip_mem (pyLStrip_mem h)

theorem pyRStrip_decomp (l : List Char) :
    ∃ w, l = pyRStrip l ++ w ∧ ∀ c ∈ w, isPyWS c = true := by
  refine ⟨(l.reverse.takeWhile isPyWS).reverse, ?_, ?_⟩
  · unfold pyRStrip
    rw [← List.reverse_append, List.takeWhile_append_dropWhile, List.reverse_reverse]
  · intro c hc
    rw [List.mem_reverse] at hc
    exact List.mem_takeWhile_imp hc

theorem splitNL_ne_nil (t : List Char) : splitNL t ≠ [] := by
  cases t with
  | nil => simp [splitNL]
  | cons c r =>
    unfold splitNL
    by_cases hc : c = '\n'
    · simp [hc]
    · simp only [if_neg hc]
      rcases splitNL r with _ | ⟨l, ls⟩ <;> simp

theorem splitNL_no_nl : ∀ (t : List Char), ∀ l ∈ splitNL t, '\n' ∉ l := by
  intro t
  induction t with
  | nil =>
    intro l hl
    simp [splitNL] at hl
    simp [hl]
  | cons c r ih =>
    intro l hl
    unfold splitNL at hl
    by_cases hc : c = '\n'
    · rw [if_pos hc] at hl
      rcases List.mem_cons.mp hl with rfl | h2
      · simp
      · exact ih l h2
    · rw [if_neg hc] at hl
      rcases e : splitNL r with _ | ⟨h0, tail⟩
      · exact absurd e (splitNL_ne_nil r)
      · rw [e] at hl
        rcases List.mem_cons.mp hl with rfl | h2
        · intro hmem
          rcases List.mem_cons.mp hmem with h3 | h3
          · exact hc h3.symm
          · exact ih h0 (e ▸ List.mem_cons_self _ _) h3
        · exact ih l (e ▸ List.mem_cons_of_mem _ h2)

theorem joinNL_cons_head (c : Char) (h : List Char) (tail : List (List Char)) :
    joinNL ((c :: h) :: tail) = c :: joinNL (h :: tail) := by
  cases tail <;> rfl

theorem joinNL_splitNL : ∀ t : List Char, joinNL (splitNL t) = t := by
  intro t
  induction t with
  | nil => rfl
  | cons c r ih =>
    unfold splitNL
    by_cases hc : c = '\n'
    · rw [if_pos hc]
      rcases e : splitNL r with _ | ⟨h0, tail⟩
      · exact absurd e (splitNL_ne_nil r)
      · show joinNL ([] :: h0 :: tail) = c :: r
        show [] ++ '\n' :: joinNL (h0 :: tail) = c :: r
        rw [e] at ih
        simp [hc, ih]
    · rw [if_neg hc]
      rcases e : splitNL r with _ | ⟨h0, tail⟩
      · exact absurd e (splitNL_ne_nil r)
      · rw [joinNL_cons_head]
        rw [e] at ih
        rw [ih]

theorem splitNL_of_no_nl {l : List Char} (h : '\n' ∉ l) : splitNL l = [l] := by
  induction l with
  | nil => rfl
  | cons c r ih =>
    have hc : c ≠ '\n' := fun h0 => h (h0 ▸ List.mem_cons_self c _)
    unfold splitNL
    rw [if_neg hc, ih fun hm => h (List.mem_cons_of_mem _ hm)]

theorem splitNL_cons (c : Char) (x : List Char) :
    splitNL (c :: x) = if c = '\n' then [] :: splitNL x
      else match splitNL x with | [] => [[c]] | l :: ls => (c :: l) :: ls := rfl

theorem splitNL_line_append {l : List Char} (h : '\n' ∉ l) (x : List Char) :
    splitNL (l ++ '\n' :: x) = l :: splitNL x := by
  induction l with
  | nil =>
    show splitNL ('\n' :: x) = [] :: splitNL x
    rw [splitNL_cons, if_pos rfl]
  | cons c r ih =>
    have hc : c ≠ '\n' := fun h0 => h (h0 ▸ List.mem_cons_self c _)
    show splitNL (c :: (r ++ '\n' :: x)) = (c :: r) :: splitNL x
    rw [splitNL_cons, if_neg hc, ih fun hm => h (List.mem_cons_of_mem _ hm)]

theorem splitNL_joinNL : ∀ (ls : List (List Char)), (∀ l ∈ ls, '\n' ∉ l) → ls ≠ [] →
    splitNL (joinNL ls) = ls := by
  intro ls
  induction ls with
  | nil => intro _ h; exact absurd rfl h
  | cons l ls' ih =>
    intro h _
    cases ls' with
    | nil => exact splitNL_of_no_nl (h l (List.mem_cons_self _ _))
    | cons m ls'' =>
      show splitNL (l ++ '\n' :: joinNL (m :: ls'')) = l :: m :: ls''
      rw [splitNL_line_append (h l (List.mem_cons_self _ _))]
      rw [ih (fun q hq => h q (List.mem_cons_of_mem _ hq)) (by simp)]

theorem mem_joinNL {c : Char} : ∀ {ls : List (List Char)},
    c ∈ joinNL ls → (∃ l ∈ ls, c ∈ l) ∨ c = '\n' := by
  intro ls
  induction ls with
  | nil => intro h; simp [joinNL] at h
  | cons l ls' ih =>
    intro h
    cases ls' with
    | nil => exact Or.inl ⟨l, List.mem_cons_self _ _, h⟩
    | cons m ls'' =>
      rcases List.mem_append.mp h with h1 | h2
      · exact Or.inl ⟨l, List.mem_cons_self _ _, h1⟩
      · rcases List.mem_cons.mp h2 with rfl | h3
        · exact Or.inr rfl
        · rcases ih h3 with ⟨q, hq, hcq⟩ | h4
          · exact Or.inl ⟨q, List.mem_cons_of_mem _ hq, hcq⟩
          · exact Or.inr h4

theorem hws_ws {c : Char} (h : isHWS c = true) : isPyWS c = true := by
  unfold isHWS at h
  unfold isPyWS
  rcases Bool.or_eq_true_iff.mp h with h1 | h1 <;> simp [h1]

theorem hw_peel {a : Char} {x : List Char} (h : noHWpairB (a :: x) = true) :
    noHWpairB x = true := by
  cases x with
  | nil => rfl
  | cons b r =>
    unfold noHWpairB at h
    exact (Bool.and_eq_true_iff.mp h).2

theorem hw_cons {a : Char} {x : List Char} (hx : noHWpairB x = true)
    (hh : ∀ z, x.head? = some z → (isHWS a && isHWS z) = false) :
    noHWpairB (a :: x) = true := by
  cases x with
  | nil => rfl
  | cons b r =>
    unfold noHWpairB
    rw [hx, hh b rfl]
    rfl

theorem cspA_true_cons (a : Char) (r : List Char) :
    collapseSpA true (a :: r) =
      if isHWS a = true then collapseSpA true r else a :: collapseSpA false r := rfl

theorem cspA_false_one (a : Char) : collapseSpA false [a] = [a] := by
  by_cases h : isHWS a = true <;> simp [collapseSpA, h]

theorem cspA_false_two (a b : Char) (r' : List Char) :
    collapseSpA false (a :: b :: r') =
      if isHWS a = true then
        (if isHWS b = true then ' ' :: collapseSpA true (b :: r')
         else a :: collapseSpA false (b :: r'))
      else a :: collapseSpA false (b :: r') := rfl

theorem csp_false_head_eq {b : Char} (hb : isHWS b = false) (x : List Char) :
    collapseSpA false (b :: x) = b :: collapseSpA false x := by
  cases x with
  | nil => rw [cspA_false_one]; rfl
  | cons d t => rw [cspA_false_two, if_neg (by simp [hb])]

theorem csp_mem {c : Char} : ∀ (l : List Char) (s : Bool),
    c ∈ collapseSpA s l → c ∈ l ∨ c = ' ' := by
  intro l
  induction l with
  | nil =>
    intro s h
    cases s <;> simp [collapseSpA] at h
  | cons a r ih =>
    intro s h
    have step : ∀ s', c ∈ (a :: collapseSpA s' r) → c ∈ a :: r ∨ c = ' ' := by
      intro s' hm
      rcases List.mem_cons.mp hm with rfl | hm2
      · exact Or.inl (List.mem_cons_self _ _)
      · rcases ih s' hm2 with h2 | h2
        · exact Or.inl (List.mem_cons_of_mem _ h2)
        · exact Or.inr h2
    cases s with
    | true =>
      rw [cspA_true_cons] at h
      by_cases ha : isHWS a = true
      · rw [if_pos ha] at h
        rcases ih true h with h2 | h2
        · exact Or.inl (List.mem_cons_of_mem _ h2)
        · exact Or.inr h2
      · rw [if_neg ha] at h
        exact step false h
    | false =>
      cases r with
      | nil =>
        rw [cspA_false_one] at h
        simp at h
        simp [h]
      | cons b r' =>
        rw [cspA_false_two] at h
        by_cases ha : isHWS a = true
        · rw [if_pos ha] at h
          by_cases hb : isHWS b = true
          · rw [if_pos hb] at h
            rcases List.mem_cons.mp h with rfl | hm2
            · exact Or.inr rfl
            · rcases ih true hm2 with h2 | h2
              · exact Or.inl (List.mem_cons_of_mem _ h2)
              · exact Or.inr h2
          · rw [if_neg hb] at h
            exact step false h
        · rw [if_neg ha] at h
          exact step false h

theorem csp_true_head : ∀ (l : List Char) {z : Char},
    (collapseSpA true l).head? = some z → isHWS z = false := by
  intro l
  induction l with
  | nil => intro z h; simp [collapseSpA] at h
  | cons a r ih =>
    intro z h
    rw [cspA_true_cons] at h
    by_cases ha : isHWS a = true
    · rw [if_pos ha] at h
      exact ih h
    · rw [if_neg ha] at h
      simp only [List.head?_cons, Option.some.injEq] at h
      rw [← h]
      simpa using ha

theorem csp_noHW : ∀ l : List Char,
    noHWpairB (collapseSpA false l) = true ∧ noHWpairB (collapseSpA true l) = true := by
  intro l
  induction l with
  | nil => exact ⟨rfl, rfl⟩
  | cons a r ih =>
    have stepNE : isHWS a = false → noHWpairB (a :: collapseSpA false r) = true := by
      intro ha
      refine hw_cons ih.1 ?_
      intro z _
      rw [ha]
      rfl
    constructor
    · by_cases ha : isHWS a = true
      · cases r with
        | nil =>
          rw [cspA_false_one]
          rfl
        | cons b r' =>
          rw [cspA_false_two, if_pos ha]
          by_cases hb : isHWS b = true
          · rw [if_pos hb]
            refine hw_cons ih.2 ?_
            intro z hz
            rw [csp_true_head (b :: r') hz]
            simp
          · rw [if_neg hb]
            refine hw_cons ih.1 ?_
            intro z hz
            rw [csp_false_head_eq (by simpa using hb)] at hz
            simp only [List.head?_cons, Option.some.injEq] at hz
            rw [← hz]
            simp [hb]
      · rw [csp_false_head_eq (by simpa using ha)]
        exact stepNE (by simpa using ha)
    · rw [cspA_true_cons]
      by_cases ha : isHWS a = true
      · rw [if_pos ha]
        exact ih.2
      · rw [if_neg ha]
        exact stepNE (by simpa using ha)

theorem collapseSp_id {l : List Char} (h : noHWpairB l = true) : collapseSp l = l := by
  unfold collapseSp
  induction l with
  | nil => rfl
  | cons a r ih =>
    by_cases ha : isHWS a = true
    · cases r with
      | nil => exact cspA_false_one a
      | cons b r' =>
        by_cases hb : isHWS b = true
        · exfalso
          unfold noHWpairB at h
          rw [ha, hb] at h
          simp at h
        · rw [cspA_false_two, if_pos ha, if_neg hb]
          rw [ih (hw_peel h)]
    · rw [csp_false_head_eq (by simpa using ha), ih (hw_peel h)]

theorem getLast?_ne_nil {α : Type} {l : List α} {z : α} (h : l.getLast? = some z) :
    l ≠ [] := by
  intro h0
  rw [h0] at h
  simp at h

theorem collapseSp_last : ∀ (l : List Char) (s : Bool) {z : Char},
    l.getLast? = some z → isPyWS z = false → (collapseSpA s l).getLast? = some z := by
  intro l
  induction l with
  | nil =>
    intro s z h _
    simp at h
  | cons a r ih =>
    intro s z h hz
    cases r with
    | nil =>
      simp only [List.getLast?_singleton, Option.some.injEq] at h
      subst h
      have ha : isHWS a = false := by
        by_cases h0 : isHWS a = true
        · rw [hws_ws h0] at hz
          exact absurd hz (by decide)
        · simpa using h0
      cases s with
      | true =>
        rw [cspA_true_cons, if_neg (by simp [ha])]
        rfl
      | false =>
        rw [cspA_false_one]
        simp
    | cons b r' =>
      rw [List.getLast?_cons_cons] at h
      have tail_last : ∀ s', (a :: collapseSpA s' (b :: r')).getLast? = some z := by
        intro s'
        have hi := ih s' h hz
        rcases e : collapseSpA s' (b :: r') with _ | ⟨w, ws⟩
        · rw [e] at hi
          simp at hi
        · rw [e] at hi
          rw [List.getLast?_cons_cons]
          exact hi
      have sp_last : (' ' :: collapseSpA true (b :: r')).getLast? = some z := by
        have hi := ih true h hz
        rcases e : collapseSpA true (b :: r') with _ | ⟨w, ws⟩
        · rw [e] at hi
          simp at hi
        · rw [e] at hi
          rw [List.getLast?_cons_cons]
          exact hi
      cases s with
      | true =>
        rw [cspA_true_cons]
        by_cases ha : isHWS a = true
        · rw [if_pos ha]
          exact ih true h hz
        · rw [if_neg ha]
          exact tail_last false
      | false =>
        rw [cspA_false_two]
        by_cases ha : isHWS a = true
        · rw [if_pos ha]
          by_cases hb : isHWS b = true
          · rw [if_pos hb]
            exact sp_last
          · rw [if_neg hb]
            exact tail_last false
        · rw [if_neg ha]
          exact tail_last false

theorem n3_cons3 (a b c : Char) (r : List Char) :
    noNL3B (a :: b :: c :: r)
      = (!(a = '\n' && b = '\n' && c = '\n') && noNL3B (b :: c :: r)) := rfl

theorem n3_small {l : List Char} (h : l.length ≤ 2) : noNL3B l = true := by
  match l, h with
  | [], _ => rfl
  | [a], _ => rfl
  | [a, b], _ => rfl

theorem n3_peel {a : Char} {x : List Char} (h : noNL3B (a :: x) = true) :
    noNL3B x = true := by
  match x, h with
  | [], _ => rfl
  | [b], _ => rfl
  | b :: c :: r, h =>
    rw [n3_cons3] at h
    exact (Bool.and_eq_true_iff.mp h).2

theorem n3_cons_ne {a : Char} (ha : a ≠ '\n') {x : List Char} (hx : noNL3B x = true) :
    noNL3B (a :: x) = true := by
  match x with
  | [] => rfl
  | [b] => rfl
  | b :: c :: r =>
    rw [n3_cons3, hx]
    simp [ha]

theorem n3_cons_nl {x : List Char} (hh : x.head? ≠ some '\n') (hx : noNL3B x = true) :
    noNL3B ('\n' :: x) = true := by
  match x with
  | [] => rfl
  | [b] => rfl
  | b :: c :: r =>
    have hb : b ≠ '\n' := by
      intro h0
      exact hh (by rw [h0]; rfl)
    rw [n3_cons3, hx]
    simp [hb]

theorem n3_two_nl {x : List Char} (hh : x.head? ≠ some '\n') (hx : noNL3B x = true) :
    noNL3B ('\n' :: '\n' :: x) = true := by
  match x with
  | [] => rfl
  | b :: r =>
    have hb : b ≠ '\n' := by
      intro h0
      exact hh (by rw [h0]; rfl)
    rw [n3_cons3]
    rw [n3_cons_nl hh hx]
    simp [hb]

theorem n3_prefix : ∀ (y x : List Char), noNL3B (x ++ y) = true → noNL3B x = true := by
  intro y x
  induction x with
  | nil => intro _; rfl
  | cons a x' ih =>
    intro h
    match x', ih, h with
    | [], _, _ => rfl
    | [b], _, _ => rfl
    | b :: c :: r, ih, h =>
      rw [List.cons_append, List.cons_append, List.cons_append, n3_cons3] at h
      rcases Bool.and_eq_true_iff.mp h with ⟨h1, h2⟩
      have hr : noNL3B (b :: c :: r) = true := by
        apply ih
        rw [List.cons_append, List.cons_append]
        exact h2
      rw [n3_cons3, hr, h1]
      rfl

theorem n3_suffix : ∀ (y x : List Char), noNL3B (x ++ y) = true → noNL3B y = true := by
  intro y x
  induction x with
  | nil => intro h; exact h
  | cons a x' ih =>
    intro h
    exact ih (n3_peel h)

theorem n3_snoc_nl : ∀ (x : List Char), noNL3B x = true →
    (∀ z, x.getLast? = some z → z ≠ '\n') → noNL3B (x ++ ['\n']) = true := by
  intro x
  induction x with
  | nil => intro _ _; rfl
  | cons a x' ih =>
    intro h hl
    match x', ih, h, hl with
    | [], _, _, _ => rfl
    | [b], _, _, hl =>
      have hb : b ≠ '\n' := hl b rfl
      rw [show ((a :: [b] : List Char) ++ ['\n']) = a :: b :: '\n' :: [] from rfl, n3_cons3]
      simp only [hb]
      simp [hb, show noNL3B [b, '\n'] = true from rfl]
    | b :: c :: r, ih, h, hl =>
      rw [show ((a :: b :: c :: r : List Char) ++ ['\n'])
            = a :: b :: c :: (r ++ ['\n']) from rfl, n3_cons3]
      rw [n3_cons3] at h
      rcases Bool.and_eq_true_iff.mp h with ⟨h1, h2⟩
      have hrec := ih h2 (fun z hz => hl z (by rw [List.getLast?_cons_cons]; exact hz))
      rw [show ((b :: c :: r : List Char) ++ ['\n'])
            = b :: c :: (r ++ ['\n']) from rfl] at hrec
      rw [hrec, h1]
      rfl

theorem cnla_false_head : ∀ (a : Char) (r : List Char),
    (collapseNLA false (a :: r)).head? = some a := by
  intro a r
  match r with
  | [] => rfl
  | [b] => rfl
  | b :: c :: r' =>
    by_cases ha : a = '\n'
    · subst ha
      by_cases hb : b = '\n'
      · subst hb
        by_cases hc : c = '\n'
        · subst hc
          rw [cnla_false_nl3]
          rfl
        · rw [cnla_false_nl2 hc]
          rfl
      · rw [cnla_false_nl1 hb]
        rfl
    · rw [cnla_false_ne ha]
      rfl

theorem cnla_true_head_ne : ∀ (l : List Char) {z : Char},
    (collapseNLA true l).head? = some z → z ≠ '\n' := by
  intro l
  induction l with
  | nil => intro z h; simp [collapseNLA] at h
  | cons a r ih =>
    intro z h
    by_cases ha : a = '\n'
    · subst ha
      rw [cnla_true_nl] at h
      exact ih h
    · rw [cnla_true_ne ha] at h
      simp only [List.head?_cons, Option.some.injEq] at h
      rw [← h]
      exact ha

theorem cnla_mem {c : Char} : ∀ (n : Nat) (l : List Char), l.length ≤ n →
    ∀ s, c ∈ collapseNLA s l → c ∈ l ∨ c = '\n' := by
  intro n
  induction n with
  | zero =>
    intro l hl s h
    have : l = [] := List.length_eq_zero.mp (Nat.le_zero.mp hl)
    subst this
    cases s <;> simp [collapseNLA] at h
  | succ n ih =>
    intro l hl s h
    cases l with
    | nil => cases s <;> simp [collapseNLA] at h
    | cons a r =>
      have hlr : r.length ≤ n := by
        simp only [List.length_cons] at hl
        omega
      have step : c ∈ (a :: collapseNLA false r) → c ∈ a :: r ∨ c = '\n' := by
        intro hm
        rcases List.mem_cons.mp hm with rfl | hm2
        · exact Or.inl (List.mem_cons_self _ _)
        · rcases ih r hlr false hm2 with h2 | h2
          · exact Or.inl (List.mem_cons_of_mem _ h2)
          · exact Or.inr h2
      cases s with
      | true =>
        by_cases ha : a = '\n'
        · subst ha
          rw [cnla_true_nl] at h
          rcases ih r hlr true h with h2 | h2
          · exact Or.inl (List.mem_cons_of_mem _ h2)
          · exact Or.inr h2
        · rw [cnla_true_ne ha] at h
          exact step h
      | false =>
        match r, hlr, step, h with
        | [], _, _, h =>
          rw [cnla_false_singleton] at h
          simp at h
          simp [h]
        | [b], _, _, h =>
          rw [cnla_false_pair] at h
          rcases List.mem_cons.mp h with rfl | h2
          · exact Or.inl (List.mem_cons_self _ _)
          · simp at h2
            simp [h2]
        | b :: d :: r', hlr, step, h =>
          by_cases ha : a = '\n'
          · subst ha
            by_cases hb : b = '\n'
            · subst hb
              by_cases hd : d = '\n'
              · subst hd
                rw [cnla_false_nl3] at h
                rcases List.mem_cons.mp h with rfl | h2
                · exact Or.inr rfl
                rcases List.mem_cons.mp h2 with rfl | h3
                · exact Or.inr rfl
                · rcases ih ('\n' :: r') (by simp only [List.length_cons] at hl ⊢; omega)
                      true h3 with h4 | h4
                  · exact Or.inl (List.mem_cons_of_mem _ (List.mem_cons_of_mem _ h4))
                  · exact Or.inr h4
              · rw [cnla_false_nl2 hd] at h
                rcases List.mem_cons.mp h with rfl | h2
                · exact Or.inr rfl
                rcases List.mem_cons.mp h2 with rfl | h3
                · exact Or.inr rfl
                · rcases ih (d :: r') (by simp only [List.length_cons] at hl ⊢; omega)
                      false h3 with h4 | h4
                  · exact Or.inl (List.mem_cons_of_mem _ (List.mem_cons_of_mem _ h4))
                  · exact Or.inr h4
            · rw [cnla_false_nl1 hb] at h
              rcases List.mem_cons.mp h with rfl | h2
              · exact Or.inr rfl
              · rcases ih (b :: d :: r') hlr false h2 with h4 | h4
                · exact Or.inl (List.mem_cons_of_mem _ h4)
                · exact Or.inr h4
          · rw [cnla_false_ne ha] at h
            exact step h

theorem cnla_noNL3 : ∀ (n : Nat) (l : List Char), l.length ≤ n →
    noNL3B (collapseNLA false l) = true ∧ noNL3B (collapseNLA true l) = true := by
  intro n
  induction n with
  | zero =>
    intro l hl
    have : l = [] := List.length_eq_zero.mp (Nat.le_zero.mp hl)
    subst this
    exact ⟨rfl, rfl⟩
  | succ n ih =>
    intro l hl
    cases l with
    | nil => exact ⟨rfl, rfl⟩
    | cons a r =>
      have hlr : r.length ≤ n := by
        simp only [List.length_cons] at hl
        omega
      have htrue : noNL3B (collapseNLA true (a :: r)) = true := by
        by_cases ha : a = '\n'
        · subst ha
          rw [cnla_true_nl]
          exact (ih r hlr).2
        · rw [cnla_true_ne ha]
          exact n3_cons_ne ha (ih r hlr).1
      refine ⟨?_, htrue⟩
      match r, hlr with
      | [], _ => rw [cnla_false_singleton]; rfl
      | [b], _ => rw [cnla_false_pair]; rfl
      | b :: d :: r', hlr =>
        by_cases ha : a = '\n'
        · subst ha
          by_cases hb : b = '\n'
          · subst hb
            by_cases hd : d = '\n'
            · subst hd
              rw [cnla_false_nl3, cnla_true_nl]
              have hlr' : r'.length ≤ n := by
                simp only [List.length_cons] at hl
                omega
              refine n3_two_nl ?_ (ih r' hlr').2
              intro h0
              exact cnla_true_head_ne r' h0 rfl
            · rw [cnla_false_nl2 hd]
              have hhd : (collapseNLA false (d :: r')).head? = some d := cnla_false_head d r'
              refine n3_two_nl ?_ ?_
              · rw [hhd]
                simp [hd]
              · have hlr' : (d :: r').length ≤ n := by
                  simp only [List.length_cons] at hl ⊢
                  omega
                exact (ih (d :: r') hlr').1
          · rw [cnla_false_nl1 hb]
            refine n3_cons_nl ?_ (ih (b :: d :: r') hlr).1
            rw [cnla_false_head b (d :: r')]
            simp [hb]
        · rw [cnla_false_ne ha]
          exact n3_cons_ne ha (ih (b :: d :: r') hlr).1

theorem collapseNL_fix : ∀ (n : Nat) (l : List Char), l.length ≤ n → noNL3B l = true →
    collapseNLA false l = l := by
  intro n
  induction n with
  | zero =>
    intro l hl _
    have : l = [] := List.length_eq_zero.mp (Nat.le_zero.mp hl)
    subst this
    rfl
  | succ n ih =>
    intro l hl h
    cases l with
    | nil => rfl
    | cons a r =>
      have hlr : r.length ≤ n := by
        simp only [List.length_cons] at hl
        omega
      match r, hlr, h with
      | [], _, _ => rw [cnla_false_singleton]
      | [b], _, _ => rw [cnla_false_pair]
      | b :: d :: r', hlr, h =>
        by_cases ha : a = '\n'
        · subst ha
          by_cases hb : b = '\n'
          · subst hb
            by_cases hd : d = '\n'
            · subst hd
              rw [n3_cons3] at h
              simp at h
            · rw [cnla_false_nl2 hd]
              have hlr' : (d :: r').length ≤ n := by
                simp only [List.length_cons] at hl ⊢
                omega
              rw [ih (d :: r') hlr' (n3_peel (n3_peel h))]
          · rw [cnla_false_nl1 hb, ih (b :: d :: r') hlr (n3_peel h)]
        · rw [cnla_false_ne ha, ih (b :: d :: r') hlr (n3_peel h)]

theorem collapseNL_id {l : List Char} (h : noNL3B l = true) : collapseNL l = l :=
  collapseNL_fix l.length l le_rfl h

theorem bnot_true {b : Bool} (h : (!b) = true) : b = false := by
  cases b
  · rfl
  · simp at h

theorem lf_cons2 (a b : Char) (r : List Char) :
    linesFixedB (a :: b :: r)
      = (!(isHWS a && isHWS b) && (!(isLineWS a && b = '\n') && linesFixedB (b :: r))) := by
  rw [show linesFixedB (a :: b :: r)
        = (!(isHWS a && isHWS b) && !(isLineWS a && b = '\n') && linesFixedB (b :: r))
      from rfl]
  rw [Bool.and_assoc]

theorem lf_peel {a : Char} {x : List Char} (h : linesFixedB (a :: x) = true) :
    linesFixedB x = true := by
  cases x with
  | nil => rfl
  | cons b r =>
    rw [lf_cons2] at h
    exact (Bool.and_eq_true_iff.mp (Bool.and_eq_true_iff.mp h).2).2

theorem lf_cons_cond {a b : Char} {r : List Char} (h1 : (isHWS a && isHWS b) = false)
    (h2 : (isLineWS a && b = '\n') = false) (h3 : linesFixedB (b :: r) = true) :
    linesFixedB (a :: b :: r) = true := by
  rw [lf_cons2, h1, h2, h3]
  rfl

theorem lf_single {c : Char} (h : isLineWS c = false) : linesFixedB [c] = true := by
  show (!isLineWS c) = true
  rw [h]
  rfl

theorem ws_not_linews {c : Char} (h : isPyWS c = false) : isLineWS c = false := by
  unfold isLineWS
  rw [h]
  rfl

theorem ws_not_hws {c : Char} (h : isPyWS c = false) : isHWS c = false := by
  by_cases h0 : isHWS c = true
  · rw [hws_ws h0] at h
    exact absurd h (by decide)
  · simpa using h0

theorem lf_cons_nl {x : List Char} (hx : linesFixedB x = true) :
    linesFixedB ('\n' :: x) = true := by
  cases x with
  | nil => rfl
  | cons b r =>
    refine lf_cons_cond ?_ ?_ hx
    · rfl
    · rfl

theorem lf_cons_ne {a : Char} (ha : isPyWS a = false) {x : List Char}
    (hx : linesFixedB x = true) : linesFixedB (a :: x) = true := by
  cases x with
  | nil => exact lf_single (ws_not_linews ha)
  | cons b r =>
    refine lf_cons_cond ?_ ?_ hx
    · rw [ws_not_hws ha]
      rfl
    · rw [ws_not_linews ha]
      rfl

theorem lf_suffix : ∀ (y x : List Char), linesFixedB (x ++ y) = true →
    linesFixedB y = true := by
  intro y x
  induction x with
  | nil => intro h; exact h
  | cons a x' ih =>
    intro h
    exact ih (lf_peel h)

theorem lf_prefix_lastok : ∀ (y x : List Char), linesFixedB (x ++ y) = true →
    (∀ z, x.getLast? = some z → isPyWS z = false) → linesFixedB x = true := by
  intro y x
  induction x with
  | nil => intro _ _; rfl
  | cons a x' ih =>
    intro h hl
    match x', ih, h, hl with
    | [], _, _, hl => exact lf_single (ws_not_linews (hl a rfl))
    | b :: r, ih, h, hl =>
      rw [List.cons_append, List.cons_append, lf_cons2] at h
      rcases Bool.and_eq_true_iff.mp h with ⟨h1, h23⟩
      rcases Bool.and_eq_true_iff.mp h23 with ⟨h2, h3⟩
      have hrec : linesFixedB (b :: r) = true := by
        apply ih
        · rw [List.cons_append]
          exact h3
        · intro z hz
          exact hl z (by rw [List.getLast?_cons_cons]; exact hz)
      exact lf_cons_cond (bnot_true h1) (bnot_true h2) hrec

theorem lf_snoc_nl : ∀ (x : List Char), linesFixedB x = true →
    (∀ z, x.getLast? = some z → isPyWS z = false) → linesFixedB (x ++ ['\n']) = true := by
  intro x
  induction x with
  | nil => intro _ _; rfl
  | cons a x' ih =>
    intro h hl
    match x', ih, h, hl with
    | [], _, _, hl =>
      show linesFixedB (a :: '\n' :: []) = true
      refine lf_cons_cond ?_ ?_ rfl
      · rw [show isHWS '\n' = false from rfl]
        simp
      · rw [ws_not_linews (hl a rfl)]
        rfl
    | b :: r, ih, h, hl =>
      rw [lf_cons2] at h
      rcases Bool.and_eq_true_iff.mp h with ⟨h1, h23⟩
      rcases Bool.and_eq_true_iff.mp h23 with ⟨h2, h3⟩
      have hrec := ih h3 (fun z hz => hl z (by rw [List.getLast?_cons_cons]; exact hz))
      rw [show ((b :: r : List Char) ++ ['\n']) = b :: (r ++ ['\n']) from rfl] at hrec
      rw [show ((a :: b :: r : List Char) ++ ['\n']) = a :: b :: (r ++ ['\n']) from rfl]
      exact lf_cons_cond (bnot_true h1) (bnot_true h2) hrec

theorem nonws_of_single_line {c : Char} (hc : c ≠ '\n') (h : isLineWS c = false) :
    isPyWS c = false := by
  by_cases h0 : isPyWS c = true
  · exfalso
    unfold isLineWS at h
    rw [h0] at h
    simp [hc] at h
  · simpa using h0

theorem lf_line : ∀ (l : List Char), '\n' ∉ l →
    (∀ z, l.getLast? = some z → isPyWS z = false) → noHWpairB l = true →
    linesFixedB l = true := by
  intro l
  induction l with
  | nil => intro _ _ _; rfl
  | cons a x ih =>
    intro hnl hlast hhw
    cases x with
    | nil => exact lf_single (ws_not_linews (hlast a rfl))
    | cons b r =>
      have hb : b ≠ '\n' := by
        intro h0
        exact hnl (h0 ▸ List.mem_cons_of_mem _ (List.mem_cons_self _ _))
      refine lf_cons_cond ?_ ?_ ?_
      · unfold noHWpairB at hhw
        exact bnot_true (Bool.and_eq_true_iff.mp hhw).1
      · simp [hb]
      · exact ih (fun hm => hnl (List.mem_cons_of_mem _ hm))
          (fun z hz => hlast z (by rw [List.getLast?_cons_cons]; exact hz))
          (hw_peel hhw)

theorem lf_glue : ∀ (l : List Char), '\n' ∉ l →
    (∀ z, l.getLast? = some z → isPyWS z = false) → noHWpairB l = true →
    ∀ x, linesFixedB ('\n' :: x) = true → linesFixedB (l ++ '\n' :: x) = true := by
  intro l
  induction l with
  | nil => intro _ _ _ x hx; exact hx
  | cons a y ih =>
    intro hnl hlast hhw x hx
    cases y with
    | nil =>
      show linesFixedB (a :: '\n' :: x) = true
      refine lf_cons_cond ?_ ?_ hx
      · rw [show isHWS '\n' = false from rfl]
        simp
      · rw [ws_not_linews (hlast a rfl)]
        rfl
    | cons b r =>
      have hb : b ≠ '\n' := by
        intro h0
        exact hnl (h0 ▸ List.mem_cons_of_mem _ (List.mem_cons_self _ _))
      show linesFixedB (a :: ((b :: r) ++ '\n' :: x)) = true
      rw [show ((b :: r : List Char) ++ '\n' :: x) = b :: (r ++ '\n' :: x) from rfl]
      refine lf_cons_cond ?_ ?_ ?_
      · unfold noHWpairB at hhw
        exact bnot_true (Bool.and_eq_true_iff.mp hhw).1
      · simp [hb]
      · have := ih (fun hm => hnl (List.mem_cons_of_mem _ hm))
          (fun z hz => hlast z (by rw [List.getLast?_cons_cons]; exact hz))
          (hw_peel hhw) x hx
        rw [show ((b :: r : List Char) ++ '\n' :: x) = b :: (r ++ '\n' :: x) from rfl] at this
        exact this

theorem LFjoin : ∀ (ls : List (List Char)),
    (∀ l ∈ ls, '\n' ∉ l ∧ (∀ z, l.getLast? = some z → isPyWS z = false)
      ∧ noHWpairB l = true) →
    linesFixedB (joinNL ls) = true := by
  intro ls
  induction ls with
  | nil => intro _; rfl
  | cons l ls' ih =>
    intro h
    rcases h l (List.mem_cons_self _ _) with ⟨h1, h2, h3⟩
    cases ls' with
    | nil => exact lf_line l h1 h2 h3
    | cons m ls'' =>
      show linesFixedB (l ++ '\n' :: joinNL (m :: ls'')) = true
      exact lf_glue l h1 h2 h3 _
        (lf_cons_nl (ih fun q hq => h q (List.mem_cons_of_mem _ hq)))

theorem cnla_LF : ∀ (n : Nat) (l : List Char), l.length ≤ n → linesFixedB l = true →
    linesFixedB (collapseNLA false l) = true ∧ linesFixedB (collapseNLA true l) = true := by
  intro n
  induction n with
  | zero =>
    intro l hl _
    have : l = [] := List.length_eq_zero.mp (Nat.le_zero.mp hl)
    subst this
    exact ⟨rfl, rfl⟩
  | succ n ih =>
    intro l hl h
    cases l with
    | nil => exact ⟨rfl, rfl⟩
    | cons a r =>
      have hlr : r.length ≤ n := by
        simp only [List.length_cons] at hl
        omega
      have step_ne : a ≠ '\n' → linesFixedB (a :: collapseNLA false r) = true := by
        intro ha
        cases r with
        | nil => exact h
        | cons b r' =>
          rcases e : collapseNLA false (b :: r') with _ | ⟨w, ws⟩
          · have := cnla_false_head b r'
            rw [e] at this
            simp at this
          · have hw : w = b := by
              have := cnla_false_head b r'
              rw [e] at this
              simpa using this
            subst hw
            rw [lf_cons2] at h
            rcases Bool.and_eq_true_iff.mp h with ⟨h1, h23⟩
            rcases Bool.and_eq_true_iff.mp h23 with ⟨h2, h3⟩
            have hout := (ih (w :: r') hlr h3).1
            rw [e] at hout
            exact lf_cons_cond (bnot_true h1) (bnot_true h2) hout
      have htrue : linesFixedB (collapseNLA true (a :: r)) = true := by
        by_cases ha : a = '\n'
        · subst ha
          rw [cnla_true_nl]
          exact (ih r hlr (lf_peel h)).2
        · rw [cnla_true_ne ha]
          exact step_ne ha
      refine ⟨?_, htrue⟩
      match r, hlr, h, step_ne with
      | [], _, h, _ => rw [cnla_false_singleton]; exact h
      | [b], _, h, _ => rw [cnla_false_pair]; exact h
      | b :: d :: r', hlr, h, step_ne =>
        by_cases ha : a = '\n'
        · subst ha
          by_cases hb : b = '\n'
          · subst hb
            by_cases hd : d = '\n'
            · subst hd
              rw [cnla_false_nl3, cnla_true_nl]
              have hlr' : r'.length ≤ n := by
                simp only [List.length_cons] at hl
                omega
              exact lf_cons_nl (lf_cons_nl
                (ih r' hlr' (lf_peel (lf_peel (lf_peel h)))).2)
            · rw [cnla_false_nl2 hd]
              have hlr' : (d :: r').length ≤ n := by
                simp only [List.length_cons] at hl ⊢
                omega
              exact lf_cons_nl (lf_cons_nl
                (ih (d :: r') hlr' (lf_peel (lf_peel h))).1)
          · rw [cnla_false_nl1 hb]
            exact lf_cons_nl ((ih (b :: d :: r') hlr (lf_peel h)).1)
        · rw [cnla_false_ne ha]
          exact step_ne ha

theorem LF_lines : ∀ (t : List Char), linesFixedB t = true →
    ∀ l ∈ splitNL t,
      (∀ z, l.getLast? = some z → isPyWS z = false) ∧ noHWpairB l = true := by
  intro t
  induction t with
  | nil =>
    intro _ l hl
    simp [splitNL] at hl
    subst hl
    exact ⟨fun z hz => by simp at hz, rfl⟩
  | cons c r ih =>
    intro h l hl
    by_cases hc : c = '\n'
    · rw [splitNL_cons, if_pos hc] at hl
      rcases List.mem_cons.mp hl with rfl | h2
      · exact ⟨fun z hz => by simp at hz, rfl⟩
      · exact ih (lf_peel h) l h2
    · rw [splitNL_cons, if_neg hc] at hl
      rcases e : splitNL r with _ | ⟨h0, tail⟩
      · exact absurd e (splitNL_ne_nil r)
      · rw [e] at hl
        rcases List.mem_cons.mp hl with rfl | h2
        · cases r with
          | nil =>
            rw [show splitNL ([] : List Char) = [[]] from rfl] at e
            injection e with e1 _
            subst e1
            refine ⟨?_, rfl⟩
            intro z hz
            simp only [List.getLast?_singleton, Option.some.injEq] at hz
            subst hz
            exact nonws_of_single_line hc (bnot_true h)
          | cons d r2 =>
            by_cases hd : d = '\n'
            · have ed : splitNL (d :: r2) = [] :: splitNL r2 := by
                rw [splitNL_cons, if_pos hd]
              rw [ed] at e
              injection e with e1 _
              subst e1
              refine ⟨?_, rfl⟩
              intro z hz
              simp only [List.getLast?_singleton, Option.some.injEq] at hz
              subst hz
              rw [lf_cons2] at h
              rcases Bool.and_eq_true_iff.mp h with ⟨_, h23⟩
              rcases Bool.and_eq_true_iff.mp h23 with ⟨hcond, _⟩
              have hcf := bnot_true hcond
              rw [hd] at hcf
              simp at hcf
              exact nonws_of_single_line hc (by simpa using hcf)
            · rcases e1 : splitNL r2 with _ | ⟨h1, tail1⟩
              · exact absurd e1 (splitNL_ne_nil r2)
              · have ed : splitNL (d :: r2) = (d :: h1) :: tail1 := by
                  rw [splitNL_cons, if_neg hd, e1]
                rw [ed] at e
                injection e with ea _
                subst ea
                have hmem : (d :: h1) ∈ splitNL (d :: r2) := by
                  rw [ed]
                  exact List.mem_cons_self _ _
                have ihr := ih (lf_peel h) (d :: h1) hmem
                constructor
                · intro z hz
                  rw [List.getLast?_cons_cons] at hz
                  exact ihr.1 z hz
                · show (!(isHWS c && isHWS d) && noHWpairB (d :: h1)) = true
                  rw [lf_cons2] at h
                  rcases Bool.and_eq_true_iff.mp h with ⟨hpair, _⟩
                  rw [hpair, ihr.2]
                  rfl
        · exact ih (lf_peel h) l (e ▸ List.mem_cons_of_mem _ h2)

theorem splitNL_mem_chars : ∀ (t : List Char) {l : List Char} {c : Char},
    l ∈ splitNL t → c ∈ l → c ∈ t := by
  intro t
  induction t with
  | nil =>
    intro l c hl hc
    simp [splitNL] at hl
    subst hl
    simp at hc
  | cons a r ih =>
    intro l c hl hc
    by_cases ha : a = '\n'
    · rw [splitNL_cons, if_pos ha] at hl
      rcases List.mem_cons.mp hl with rfl | h2
      · simp at hc
      · exact List.mem_cons_of_mem _ (ih h2 hc)
    · rw [splitNL_cons, if_neg ha] at hl
      rcases e : splitNL r with _ | ⟨h0, tail⟩
      · exact absurd e (splitNL_ne_nil r)
      · rw [e] at hl
        rcases List.mem_cons.mp hl with rfl | h2
        · rcases List.mem_cons.mp hc with rfl | h3
          · exact List.mem_cons_self _ _
          · exact List.mem_cons_of_mem _ (ih (e ▸ List.mem_cons_self _ _) h3)
        · exact List.mem_cons_of_mem _ (ih (e ▸ List.mem_cons_of_mem _ h2) hc)

theorem map_fix {f : List Char → List Char} :
    ∀ (ls : List (List Char)), (∀ l ∈ ls, f l = l) → ls.map f = ls := by
  intro ls
  induction ls with
  | nil => intro _; rfl
  | cons l ls' ih =>
    intro h
    simp only [List.map_cons]
    rw [h l (List.mem_cons_self _ _), ih fun q hq => h q (List.mem_cons_of_mem _ hq)]

theorem rstrip_snoc_ws {c : Char} (hc : isPyWS c = true) (x : List Char) :
    pyRStrip (x ++ [c]) = pyRStrip x := by
  unfold pyRStrip
  rw [List.reverse_append]
  show (List.dropWhile isPyWS (c :: x.reverse)).reverse = _
  rw [List.dropWhile_cons, hc]
  simp

theorem strip_last (v : List Char) :
    ∀ z, (pyStrip v).getLast? = some z → isPyWS z = false := by
  intro z hz
  have hne : pyStrip v ≠ [] := getLast?_ne_nil hz
  have hdec : pyRStrip v
      = (pyRStrip v).takeWhile isPyWS ++ pyStrip v := by
    show pyRStrip v = (pyRStrip v).takeWhile isPyWS ++ (pyRStrip v).dropWhile isPyWS
    rw [List.takeWhile_append_dropWhile]
  apply pyRStrip_last
  show (pyRStrip v).getLast? = some z
  rw [hdec, List.getLast?_append_of_ne_nil _ hne]
  exact hz

theorem pyRStrip_strip (v : List Char) : pyRStrip (pyStrip v) = pyStrip v :=
  pyRStrip_id (strip_last v)

theorem pyLStrip_strip (v : List Char) : pyLStrip (pyStrip v) = pyStrip v := by
  show pyLStrip (pyLStrip (pyRStrip v)) = pyLStrip (pyRStrip v)
  unfold pyLStrip
  exact dropWhile_idem _ _

theorem stripS (v : List Char) : pyStrip (pyStrip v ++ ['\n']) = pyStrip v := by
  show pyLStrip (pyRStrip (pyStrip v ++ ['\n'])) = pyStrip v
  rw [rstrip_snoc_ws (by decide), pyRStrip_strip, pyLStrip_strip]

theorem clean_of_norm (x : List Char)
    (hcr : '\r' ∉ x ++ ['\n'])
    (hlf : linesFixedB (x ++ ['\n']) = true)
    (hn3 : noNL3B (x ++ ['\n']) = true)
    (hstrip : pyStrip (x ++ ['\n']) = x) :
    clean_whitespace (x ++ ['\n']) = x ++ ['\n'] := by
  unfold clean_whitespace
  rw [replaceCRLF_id hcr, replaceCR_id hcr]
  have hfix := LF_lines _ hlf
  have m1 : (splitNL (x ++ ['\n'])).map pyRStrip = splitNL (x ++ ['\n']) :=
    map_fix _ (fun l hl => pyRStrip_id ((hfix l hl).1))
  rw [m1]
  have m2 : (splitNL (x ++ ['\n'])).map collapseSp = splitNL (x ++ ['\n']) :=
    map_fix _ (fun l hl => collapseSp_id ((hfix l hl).2))
  rw [m2, joinNL_splitNL, collapseNL_id hn3, hstrip]

theorem strip_norm_fix (u : List Char)
    (hcr : '\r' ∉ u)
    (hlf : linesFixedB u = true)
    (hn3 : noNL3B u = true) :
    clean_whitespace (pyStrip u ++ ['\n']) = pyStrip u ++ ['\n'] := by
  obtain ⟨w0, hw0, _⟩ := pyRStrip_decomp u
  have LFru : linesFixedB (pyRStrip u) = true := by
    apply lf_prefix_lastok w0
    · rw [← hw0]
      exact hlf
    · intro z hz
      exact pyRStrip_last z hz
  have hdec2 : pyRStrip u = (pyRStrip u).takeWhile isPyWS ++ pyStrip u := by
    show pyRStrip u
      = (pyRStrip u).takeWhile isPyWS ++ (pyRStrip u).dropWhile isPyWS
    rw [List.takeWhile_append_dropWhile]
  have LFcore : linesFixedB (pyStrip u) = true := by
    apply lf_suffix (pyStrip u) ((pyRStrip u).takeWhile isPyWS)
    rw [← hdec2]
    exact LFru
  have N3ru : noNL3B (pyRStrip u) = true := by
    apply n3_prefix w0
    rw [← hw0]
    exact hn3
  have N3core : noNL3B (pyStrip u) = true := by
    apply n3_suffix (pyStrip u) ((pyRStrip u).takeWhile isPyWS)
    rw [← hdec2]
    exact N3ru
  have LFt1 := lf_snoc_nl (pyStrip u) LFcore (strip_last u)
  have N3t1 : noNL3B (pyStrip u ++ ['\n']) = true := by
    apply n3_snoc_nl (pyStrip u) N3core
    intro z hz h0
    subst h0
    exact absurd (strip_last u _ hz) (by decide)
  have hcr1 : '\r' ∉ pyStrip u ++ ['\n'] := by
    intro hm
    rcases List.mem_append.mp hm with h1 | h1
    · exact hcr (pyStrip_mem h1)
    · simp at h1
  exact clean_of_norm (pyStrip u) hcr1 LFt1 N3t1 (stripS u)

/-- C6: the Whitespace Normalizer is idempotent — re-running
`clean_whitespace` on its own output returns that output unchanged. -/
theorem c6_whitespace_idempotent (t : List Char) :
    clean_whitespace (clean_whitespace t) = clean_whitespace t := by
  show clean_whitespace (pyStrip (collapseNL (joinNL
      (((splitNL (replaceCR (replaceCRLF t))).map pyRStrip).map collapseSp))) ++ ['\n'])
    = _
  have lineOK : ∀ l ∈ ((splitNL (replaceCR (replaceCRLF t))).map pyRStrip).map collapseSp,
      '\n' ∉ l ∧ (∀ z, l.getLast? = some z → isPyWS z = false)
      ∧ noHWpairB l = true := by
    intro l hl
    rcases List.mem_map.mp hl with ⟨l1, hl1, rfl⟩
    rcases List.mem_map.mp hl1 with ⟨l0, hl0, rfl⟩
    refine ⟨?_, ?_, (csp_noHW (pyRStrip l0)).1⟩
    · intro hm
      rcases csp_mem _ false hm with h1 | h1
      · exact splitNL_no_nl _ l0 hl0 (pyRStrip_mem h1)
      · exact absurd h1 (by decide)
    · intro z hz
      rcases el : (pyRStrip l0).getLast? with _ | w
      · rw [List.getLast?_eq_none_iff] at el
        rw [show collapseSp (pyRStrip l0) = collapseSp [] from by rw [el]] at hz
        simp [collapseSp, collapseSpA] at hz
      · have hw : isPyWS w = false := pyRStrip_last w el
        have h2 := collapseSp_last (pyRStrip l0) false el hw
        rw [show collapseSp (pyRStrip l0) = collapseSpA false (pyRStrip l0) from rfl,
            h2] at hz
        injection hz with hzz
        rw [← hzz]
        exact hw
  have LFw := LFjoin _ lineOK
  have LFu : linesFixedB (collapseNL (joinNL
      (((splitNL (replaceCR (replaceCRLF t))).map pyRStrip).map collapseSp))) = true := by
    unfold collapseNL
    exact (cnla_LF _ _ le_rfl LFw).1
  have N3u : noNL3B (collapseNL (joinNL
      (((splitNL (replaceCR (replaceCRLF t))).map pyRStrip).map collapseSp))) = true := by
    unfold collapseNL
    exact (cnla_noNL3 _ _ le_rfl).1
  have hcrU : '\r' ∉ collapseNL (joinNL
      (((splitNL (replaceCR (replaceCRLF t))).map pyRStrip).map collapseSp)) := by
    intro hm
    unfold collapseNL at hm
    rcases cnla_mem _ _ le_rfl false hm with h1 | h1
    · rcases mem_joinNL h1 with ⟨l, hl, hcl⟩ | h2
      · rcases List.mem_map.mp hl with ⟨l1, hl1, rfl⟩
        rcases List.mem_map.mp hl1 with ⟨l0, hl0, rfl⟩
        rcases csp_mem _ false hcl with h3 | h3
        · exact replaceCR_no_cr (replaceCRLF t)
            (splitNL_mem_chars _ hl0 (pyRStrip_mem h3))
        · exact absurd h3 (by decide)
      · exact absurd h2 (by decide)
    · exact absurd h1 (by decide)
  exact strip_norm_fix _ hcrU LFu N3u

theorem consHead_eq (c : Char) (X : List (List Char)) : consHead c X = consAll [c] X := by
  cases X <;> rfl

theorem consAll_consHead (c : Char) (m : List Char) (X : List (List Char)) :
    consHead c (consAll m X) = consAll (c :: m) X := by
  cases X <;> simp [consHead, consAll]

theorem consAll_nil_of_ne {X : List (List Char)} (h : X ≠ []) : consAll [] X = X := by
  cases X with
  | nil => exact absurd rfl h
  | cons l ls => simp [consAll]

theorem consHead_ne_nil (c : Char) (X : List (List Char)) : consHead c X ≠ [] := by
  cases X <;> simp [consHead]

theorem sspA_sep {c : Char} (hc : isSepCh c = true) (b : Bool) (r : List Char) :
    splitSepA b (c :: r) = [] :: splitSepA true r := by
  match r with
  | [] =>
    show (if isSepCh c = true then [] :: splitSepA true [] else _) = _
    rw [if_pos hc]
  | [n] =>
    show (if isSepCh c = true then [] :: splitSepA true [n] else _) = _
    rw [if_pos hc]
  | n :: d :: r3 =>
    show (if isSepCh c = true then [] :: splitSepA true (n :: d :: r3) else _) = _
    rw [if_pos hc]

theorem splitSepA_ne_nil : ∀ (l : List Char) (b : Bool), splitSepA b l ≠ [] := by
  intro l
  induction l with
  | nil => intro b; simp [splitSepA]
  | cons c r ih =>
    intro b
    by_cases hc : isSepCh c = true
    · rw [sspA_sep hc]
      simp
    · match r with
      | [] => simp [splitSepA, hc, consHead]
      | [n] =>
        show (if isSepCh c = true then _ else consHead c (splitSepA (!isWordCh c) [n])) ≠ []
        rw [if_neg hc]
        exact consHead_ne_nil _ _
      | n :: d :: r3 =>
        show (if isSepCh c = true then _
          else if (b && isAndCh c n d && bdry r3) = true then [] :: splitSepA false r3
          else consHead c (splitSepA (!isWordCh c) (n :: d :: r3))) ≠ []
        rw [if_neg hc]
        by_cases hA : (b && isAndCh c n d && bdry r3) = true
        · rw [if_pos hA]
          simp
        · rw [if_neg hA]
          exact consHead_ne_nil _ _

theorem endBdry_cons (b : Bool) (c : Char) (m : List Char) :
    endBdry b (c :: m) = endBdry (!isWordCh c) m := by
  cases m with
  | nil => rfl
  | cons x xs =>
    unfold endBdry
    rw [List.getLast?_cons_cons]
    rcases e : (x :: xs).getLast? with _ | z
    · rw [List.getLast?_eq_none_iff] at e
      simp at e
    · rfl

theorem nsa_peel {b : Bool} {c : Char} {m : List Char}
    (h : noStandaloneAnd b (c :: m) = true) : noStandaloneAnd (!isWordCh c) m = true := by
  unfold noStandaloneAnd at h
  exact (Bool.and_eq_true_iff.mp h).2

theorem andCh_word {c n d : Char} (h : isAndCh c n d = true) : isWordCh n = true := by
  unfold isAndCh at h
  rcases Bool.and_eq_true_iff.mp h with ⟨h1, _⟩
  rcases Bool.and_eq_true_iff.mp h1 with ⟨_, h2⟩
  rcases Bool.or_eq_true_iff.mp h2 with h3 | h3 <;>
    simp only [decide_eq_true_eq] at h3 <;> subst h3 <;> decide

theorem scan_window_false (b : Bool) (c : Char) (m' rest : List Char)
    (hand : noStandaloneAnd b (c :: m') = true) (hbr : bdry rest = true) :
    ∀ n d r3, m' ++ rest = n :: d :: r3 → (b && isAndCh c n d && bdry r3) = false := by
  intro n d r3 he
  by_cases hA : isAndCh c n d = true
  swap
  · simp [hA]
  cases m' with
  | nil =>
    simp only [List.nil_append] at he
    rw [he] at hbr
    have hbr' : (!isWordCh n) = true := hbr
    rw [andCh_word hA] at hbr'
    simp at hbr'
  | cons x m'' =>
    rw [List.cons_append] at he
    injection he with he1 he2
    cases m'' with
    | nil =>
      simp only [List.nil_append] at he2
      rw [he2] at hbr
      have hbr' : (!isWordCh d) = true := hbr
      have hdw : isWordCh d = true := by
        unfold isAndCh at hA
        rcases Bool.and_eq_true_iff.mp hA with ⟨_, h3⟩
        rcases Bool.or_eq_true_iff.mp h3 with h4 | h4 <;>
          simp only [decide_eq_true_eq] at h4 <;> subst h4 <;> decide
      rw [hdw] at hbr'
      simp at hbr'
    | cons y m3 =>
      rw [List.cons_append] at he2
      injection he2 with he3 he4
      unfold noStandaloneAnd at hand
      rcases Bool.and_eq_true_iff.mp hand with ⟨hwin, _⟩
      have hwf : (b && isAndCh c x y && bdry m3) = false := bnot_true hwin
      rw [← he1, ← he3, ← he4]
      cases m3 with
      | nil =>
        rw [List.nil_append, hbr]
        rw [show bdry ([] : List Char) = true from rfl] at hwf
        exact hwf
      | cons w m4 =>
        rw [show bdry ((w :: m4) ++ rest) = bdry (w :: m4) from rfl]
        exact hwf

theorem splitSepA_step (b : Bool) (c : Char) (rest2 : List Char) (hc : isSepCh c = false)
    (hcond : ∀ n d r3, rest2 = n :: d :: r3 → (b && isAndCh c n d && bdry r3) = false) :
    splitSepA b (c :: rest2) = consHead c (splitSepA (!isWordCh c) rest2) := by
  match rest2, hcond with
  | [], _ =>
    show (if isSepCh c = true then _ else consHead c (splitSepA (!isWordCh c) [])) = _
    rw [if_neg (by simp [hc])]
  | [n], _ =>
    show (if isSepCh c = true then _ else consHead c (splitSepA (!isWordCh c) [n])) = _
    rw [if_neg (by simp [hc])]
  | n :: d :: r3, hcond =>
    show (if isSepCh c = true then _
      else if (b && isAndCh c n d && bdry r3) = true then [] :: splitSepA false r3
      else consHead c (splitSepA (!isWordCh c) (n :: d :: r3))) = _
    rw [if_neg (by simp [hc]), if_neg (by rw [hcond n d r3 rfl]; simp)]

theorem splitSepA_name : ∀ (m : List Char) (b : Bool) (rest : List Char),
    (∀ c ∈ m, isSepCh c = false) →
    noStandaloneAnd b m = true →
    bdry rest = true →
    splitSepA b (m ++ rest) = consAll m (splitSepA (endBdry b m) rest) := by
  intro m
  induction m with
  | nil =>
    intro b rest _ _ _
    rw [List.nil_append]
    rw [consAll_nil_of_ne (splitSepA_ne_nil rest (endBdry b []))]
    rfl
  | cons c m' ih =>
    intro b rest hsep hand hbr
    rw [List.cons_append]
    rw [splitSepA_step b c (m' ++ rest) (hsep c (List.mem_cons_self _ _))
      (scan_window_false b c m' rest hand hbr)]
    rw [ih (!isWordCh c) rest (fun z hz => hsep z (List.mem_cons_of_mem _ hz))
      (nsa_peel hand) hbr]
    rw [consAll_consHead, endBdry_cons]

theorem sep_not_name {c : Char} (h : isSepCh c = true) :
    isNameCh c = false ∧ c ≠ ' ' := by
  unfold isSepCh at h
  rcases Bool.or_eq_true_iff.mp h with h1 | h1
  · rcases Bool.or_eq_true_iff.mp h1 with h2 | h2
    · rcases Bool.or_eq_true_iff.mp h2 with h3 | h3 <;>
        simp only [decide_eq_true_eq] at h3 <;> subst h3 <;> exact ⟨by decide, by decide⟩
    · simp only [decide_eq_true_eq] at h2
      subst h2
      exact ⟨by decide, by decide⟩
  · simp only [decide_eq_true_eq] at h1
    subst h1
    exact ⟨by decide, by decide⟩

theorem goodChar_not_sep {c : Char} (h : (isNameCh c || c = ' ') = true) :
    isSepCh c = false := by
  by_cases hs : isSepCh c = true
  · rcases sep_not_name hs with ⟨h1, h2⟩
    rcases Bool.or_eq_true_iff.mp h with h3 | h3
    · rw [h1] at h3
      exact absurd h3 (by decide)
    · simp only [decide_eq_true_eq] at h3
      exact absurd h3 h2
  · simpa using hs

theorem nsa_cons_sp {m : List Char} (h : noStandaloneAnd true m = true) :
    noStandaloneAnd true (' ' :: m) = true := by
  match m, h with
  | [], _ => rfl
  | [x], h =>
    show ((true : Bool) && noStandaloneAnd (!isWordCh ' ') [x]) = true
    rw [show (!isWordCh ' ') = true from rfl]
    simpa using h
  | n :: d :: r3, h =>
    show ((!(true && isAndCh ' ' n d && bdry r3)) &&
      noStandaloneAnd (!isWordCh ' ') (n :: d :: r3)) = true
    rw [show isAndCh ' ' n d = false from rfl]
    rw [show (!isWordCh ' ') = true from rfl]
    simpa using h

theorem bdry_renderSep (s : NameSep) (x : List Char) :
    bdry (renderSep s ++ x) = true := by
  cases s <;> rfl

theorem innerOf_cons (acc : List Char) (s : NameSep) (m : List Char)
    (rest : List (NameSep × List Char)) :
    innerOf acc ((s, m) :: rest) = acc ++ (renderSep s ++ innerOf m rest) := by
  unfold innerOf
  simp [List.append_assoc]

theorem innerOf_nil (acc : List Char) : innerOf acc [] = acc := by
  unfold innerOf
  simp

theorem consHead_sepParts (m : List Char) :
    ∀ r : List (NameSep × List Char), consHead ' ' (sepParts m r) = sepParts (' ' :: m) r := by
  intro r
  match r with
  | [] => rfl
  | (NameSep.andw, m') :: r' => rfl
  | (NameSep.comma, m') :: r' => rfl
  | (NameSep.slash, m') :: r' => rfl
  | (NameSep.amp, m') :: r' => rfl

theorem sspA_and (b : Bool) (rest2 : List Char) :
    splitSepA b (str " and " ++ rest2) = [' '] :: consHead ' ' (splitSepA true rest2) := by
  show splitSepA b (' ' :: 'a' :: 'n' :: 'd' :: ' ' :: rest2) = _
  rw [splitSepA_step b ' ' ('a' :: 'n' :: 'd' :: ' ' :: rest2) (by decide) ?hc1]
  case hc1 =>
    intro n d r3 he
    injection he with h1 he'
    injection he' with h2 _
    rw [← h1, ← h2]
    rw [show isAndCh ' ' 'a' 'n' = false from by decide]
    simp
  rw [show (!isWordCh ' ') = true from rfl]
  have step2 : splitSepA true ('a' :: 'n' :: 'd' :: ' ' :: rest2)
      = [] :: splitSepA false (' ' :: rest2) := by
    show (if isSepCh 'a' = true then _
      else if (true && isAndCh 'a' 'n' 'd' && bdry (' ' :: rest2)) = true
        then [] :: splitSepA false (' ' :: rest2)
        else consHead 'a' (splitSepA (!isWordCh 'a') ('n' :: 'd' :: ' ' :: rest2))) = _
    rw [if_neg (by decide), if_pos (by rw [show bdry (' ' :: rest2) = true from rfl]; decide)]
  rw [step2]
  rw [splitSepA_step false ' ' rest2 (by decide) ?hc2]
  case hc2 =>
    intro n d r3 _
    simp
  rw [show (!isWordCh ' ') = true from rfl]
  rfl

theorem split_inner : ∀ (rest : List (NameSep × List Char)) (acc : List Char),
    (∀ c ∈ acc, isSepCh c = false) → noStandaloneAnd true acc = true →
    (∀ p ∈ rest, (∀ c ∈ p.2, isSepCh c = false) ∧ noStandaloneAnd true p.2 = true) →
    splitSepA true (innerOf acc rest) = sepParts acc rest := by
  intro rest
  induction rest with
  | nil =>
    intro acc h1 h2 _
    rw [innerOf_nil]
    have hn := splitSepA_name acc true [] h1 h2 rfl
    rw [List.append_nil] at hn
    rw [hn]
    show [acc ++ []] = [acc]
    simp
  | cons p rest' ih =>
    intro acc h1 h2 hrest
    rcases p with ⟨s, m⟩
    rw [innerOf_cons]
    rw [splitSepA_name acc true (renderSep s ++ innerOf m rest') h1 h2 (bdry_renderSep s _)]
    have ihm := ih m (hrest (s, m) (List.mem_cons_self _ _)).1
      (hrest (s, m) (List.mem_cons_self _ _)).2
      (fun q hq => hrest q (List.mem_cons_of_mem _ hq))
    cases s with
    | comma =>
      rw [show renderSep NameSep.comma ++ innerOf m rest' = ',' :: innerOf m rest' from rfl]
      rw [sspA_sep (by decide), ihm]
      show (acc ++ []) :: sepParts m rest' = acc :: sepParts m rest'
      simp
    | slash =>
      rw [show renderSep NameSep.slash ++ innerOf m rest' = '/' :: innerOf m rest' from rfl]
      rw [sspA_sep (by decide), ihm]
      show (acc ++ []) :: sepParts m rest' = acc :: sepParts m rest'
      simp
    | amp =>
      rw [show renderSep NameSep.amp ++ innerOf m rest' = '&' :: innerOf m rest' from rfl]
      rw [sspA_sep (by decide), ihm]
      show (acc ++ []) :: sepParts m rest' = acc :: sepParts m rest'
      simp
    | andw =>
      rw [show renderSep NameSep.andw ++ innerOf m rest'
        = str " and " ++ innerOf m rest' from rfl]
      rw [sspA_and, ihm, consHead_sepParts]
      rfl

theorem subAndA_step (b : Bool) (c : Char) (rest2 : List Char)
    (hcond : ∀ n d r3, rest2 = n :: d :: r3 → (b && isAndCh c n d && bdry r3) = false) :
    SC.subAndA b (c :: rest2) = c :: SC.subAndA (!isWordCh c) rest2 := by
  match rest2, hcond with
  | [], _ => rfl
  | [n], _ => rfl
  | n :: d :: r3, hcond =>
    show (if (b && isAndCh c n d && bdry r3) = true then ',' :: SC.subAndA false r3
      else c :: SC.subAndA (!isWordCh c) (n :: d :: r3)) = _
    rw [if_neg (by rw [hcond n d r3 rfl]; simp)]

theorem subAndA_name : ∀ (m : List Char) (b : Bool) (rest : List Char),
    noStandaloneAnd b m = true →
    bdry rest = true →
    SC.subAndA b (m ++ rest) = m ++ SC.subAndA (endBdry b m) rest := by
  intro m
  induction m with
  | nil =>
    intro b rest _ _
    rfl
  | cons c m' ih =>
    intro b rest hand hbr
    rw [List.cons_append]
    rw [subAndA_step b c (m' ++ rest) (scan_window_false b c m' rest hand hbr)]
    rw [ih (!isWordCh c) rest (nsa_peel hand) hbr]
    rw [endBdry_cons, List.cons_append]

theorem sub_and (b : Bool) (rest2 : List Char) :
    SC.subAndA b (str " and " ++ rest2) = str " , " ++ SC.subAndA true rest2 := by
  show SC.subAndA b (' ' :: 'a' :: 'n' :: 'd' :: ' ' :: rest2) = _
  rw [subAndA_step b ' ' ('a' :: 'n' :: 'd' :: ' ' :: rest2) ?hc1]
  case hc1 =>
    intro n d r3 he
    injection he with h1 he'
    injection he' with h2 _
    rw [← h1, ← h2]
    rw [show isAndCh ' ' 'a' 'n' = false from by decide]
    simp
  rw [show (!isWordCh ' ') = true from rfl]
  have step2 : SC.subAndA true ('a' :: 'n' :: 'd' :: ' ' :: rest2)
      = ',' :: SC.subAndA false (' ' :: rest2) := by
    show (if (true && isAndCh 'a' 'n' 'd' && bdry (' ' :: rest2)) = true
        then ',' :: SC.subAndA false (' ' :: rest2)
        else 'a' :: SC.subAndA (!isWordCh 'a') ('n' :: 'd' :: ' ' :: rest2)) = _
    rw [if_pos (by rw [show bdry (' ' :: rest2) = true from rfl]; decide)]
  rw [step2]
  rw [subAndA_step false ' ' rest2 ?hc2]
  case hc2 =>
    intro n d r3 _
    simp
  rw [show (!isWordCh ' ') = true from rfl]
  rfl

theorem amp_not_name {c : Char} (h : (c = '&' || c = '/' || c = '|') = true) :
    (isNameCh c || c = ' ') = false := by
  rcases Bool.or_eq_true_iff.mp h with h1 | h1
  · rcases Bool.or_eq_true_iff.mp h1 with h2 | h2 <;>
      simp only [decide_eq_true_eq] at h2 <;> subst h2 <;> decide
  · simp only [decide_eq_true_eq] at h1
    subst h1
    decide

theorem goodChar_not_amp {c : Char} (h : (isNameCh c || c = ' ') = true) :
    (c = '&' || c = '/' || c = '|') = false := by
  by_cases hs : (c = '&' || c = '/' || c = '|') = true
  · rw [amp_not_name hs] at h
    exact absurd h (by decide)
  · simpa using hs

theorem goodChar_ne_comma {c : Char} (h : (isNameCh c || c = ' ') = true) : c ≠ ',' := by
  intro e
  subst e
  exact absurd h (by decide)

theorem subAmpSlash_append (a b : List Char) :
    SC.subAmpSlash (a ++ b) = SC.subAmpSlash a ++ SC.subAmpSlash b := by
  unfold SC.subAmpSlash
  exact List.map_append _ a b

theorem subAmpSlash_id : ∀ {l : List Char},
    (∀ c ∈ l, (isNameCh c || c = ' ') = true) → SC.subAmpSlash l = l := by
  intro l
  induction l with
  | nil =>
    intro _
    rfl
  | cons c r ih =>
    intro h
    show (if (c = '&' || c = '/' || c = '|') = true then ',' else c) :: SC.subAmpSlash r
      = c :: r
    rw [if_neg (by rw [goodChar_not_amp (h c (List.mem_cons_self _ _))]; simp)]
    rw [ih fun z hz => h z (List.mem_cons_of_mem _ hz)]

theorem splitComma_ne_nil : ∀ l : List Char, splitComma l ≠ [] := by
  intro l
  match l with
  | [] => simp [splitComma]
  | c :: r =>
    unfold splitComma
    by_cases hc : c = ','
    · rw [if_pos hc]
      simp
    · rw [if_neg hc]
      rcases e : splitComma r with _ | ⟨x, xs⟩ <;> simp

theorem splitComma_cons_ne {c : Char} (hc : ¬(c = ',')) (r : List Char) :
    splitComma (c :: r) = consHead c (splitComma r) := by
  show (if c = ',' then [] :: splitComma r
    else match splitComma r with
      | [] => [[c]]
      | l :: ls => (c :: l) :: ls) = consHead c (splitComma r)
  rw [if_neg hc]
  rcases e : splitComma r with _ | ⟨x, xs⟩
  · exact absurd e (splitComma_ne_nil r)
  · rfl

theorem splitComma_name : ∀ (m : List Char) (rest : List Char),
    (∀ c ∈ m, c ≠ ',') →
    splitComma (m ++ rest) = consAll m (splitComma rest) := by
  intro m
  induction m with
  | nil =>
    intro rest _
    rw [List.nil_append, consAll_nil_of_ne (splitComma_ne_nil rest)]
  | cons c m' ih =>
    intro rest h
    rw [List.cons_append]
    rw [splitComma_cons_ne (h c (List.mem_cons_self _ _)) (m' ++ rest)]
    rw [ih rest (fun z hz => h z (List.mem_cons_of_mem _ hz))]
    rw [consAll_consHead]

theorem sub_sp_step (b : Bool) (w : List Char) :
    SC.subAndA b (' ' :: w) = ' ' :: SC.subAndA true w := by
  rw [subAndA_step b ' ' w (fun n d r3 _ => by
    rw [show isAndCh ' ' n d = false from rfl]; simp)]
  rw [show (!isWordCh ' ') = true from rfl]

theorem sub_comma_step (b : Bool) (w : List Char) :
    SC.subAndA b (',' :: w) = ',' :: SC.subAndA true w := by
  rw [subAndA_step b ',' w (fun n d r3 _ => by
    rw [show isAndCh ',' n d = false from rfl]; simp)]
  rw [show (!isWordCh ',') = true from rfl]

theorem sub_split : ∀ (rest : List (NameSep × List Char)) (acc : List Char),
    (∀ c ∈ acc, (isNameCh c || c = ' ') = true) →
    noStandaloneAnd true acc = true →
    (∀ p ∈ rest, (∀ c ∈ p.2, (isNameCh c || c = ' ') = true) ∧
      noStandaloneAnd true p.2 = true) →
    splitComma (SC.subAndA true (SC.subAmpSlash (innerOf acc rest))) = sepParts acc rest := by
  intro rest
  induction rest with
  | nil =>
    intro acc h1 h2 _
    rw [innerOf_nil, subAmpSlash_id h1]
    have hn := subAndA_name acc true [] h2 rfl
    rw [List.append_nil] at hn
    rw [hn]
    rw [show SC.subAndA (endBdry true acc) [] = [] from rfl, List.append_nil]
    have hs := splitComma_name acc [] (fun c hc => goodChar_ne_comma (h1 c hc))
    rw [List.append_nil] at hs
    rw [hs]
    show [acc ++ []] = [acc]
    simp
  | cons p rest' ih =>
    intro acc h1 h2 hrest
    rcases p with ⟨s, m⟩
    have hm1 := (hrest (s, m) (List.mem_cons_self _ _)).1
    have hm2 := (hrest (s, m) (List.mem_cons_self _ _)).2
    have hrest' : ∀ q ∈ rest', (∀ c ∈ q.2, (isNameCh c || c = ' ') = true) ∧
        noStandaloneAnd true q.2 = true :=
      fun q hq => hrest q (List.mem_cons_of_mem _ hq)
    rw [innerOf_cons, subAmpSlash_append, subAmpSlash_id h1]
    cases s with
    | comma =>
      rw [show SC.subAmpSlash (renderSep NameSep.comma ++ innerOf m rest')
        = ',' :: SC.subAmpSlash (innerOf m rest') from rfl]
      rw [subAndA_name acc true (',' :: SC.subAmpSlash (innerOf m rest')) h2 rfl]
      rw [sub_comma_step]
      rw [splitComma_name acc _ (fun c hc => goodChar_ne_comma (h1 c hc))]
      rw [show splitComma (',' :: SC.subAndA true (SC.subAmpSlash (innerOf m rest')))
        = [] :: splitComma (SC.subAndA true (SC.subAmpSlash (innerOf m rest'))) from rfl]
      rw [ih m hm1 hm2 hrest']
      show (acc ++ []) :: sepParts m rest' = acc :: sepParts m rest'
      simp
    | slash =>
      rw [show SC.subAmpSlash (renderSep NameSep.slash ++ innerOf m rest')
        = ',' :: SC.subAmpSlash (innerOf m rest') from rfl]
      rw [subAndA_name acc true (',' :: SC.subAmpSlash (innerOf m rest')) h2 rfl]
      rw [sub_comma_step]
      rw [splitComma_name acc _ (fun c hc => goodChar_ne_comma (h1 c hc))]
      rw [show splitComma (',' :: SC.subAndA true (SC.subAmpSlash (innerOf m rest')))
        = [] :: splitComma (SC.subAndA true (SC.subAmpSlash (innerOf m rest'))) from rfl]
      rw [ih m hm1 hm2 hrest']
      show (acc ++ []) :: sepParts m rest' = acc :: sepParts m rest'
      simp
    | amp =>
      rw [show SC.subAmpSlash (renderSep NameSep.amp ++ innerOf m rest')
        = ',' :: SC.subAmpSlash (innerOf m rest') from rfl]
      rw [subAndA_name acc true (',' :: SC.subAmpSlash (innerOf m rest')) h2 rfl]
      rw [sub_comma_step]
      rw [splitComma_name acc _ (fun c hc => goodChar_ne_comma (h1 c hc))]
      rw [show splitComma (',' :: SC.subAndA true (SC.subAmpSlash (innerOf m rest')))
        = [] :: splitComma (SC.subAndA true (SC.subAmpSlash (innerOf m rest'))) from rfl]
      rw [ih m hm1 hm2 hrest']
      show (acc ++ []) :: sepParts m rest' = acc :: sepParts m rest'
      simp
    | andw =>
      rw [show SC.subAmpSlash (renderSep NameSep.andw ++ innerOf m rest')
        = str " and " ++ SC.subAmpSlash (innerOf m rest') from rfl]
      rw [subAndA_name acc true (str " and " ++ SC.subAmpSlash (innerOf m rest')) h2 rfl]
      rw [sub_and]
      have hrearr : acc ++ (str " , " ++ SC.subAndA true (SC.subAmpSlash (innerOf m rest')))
          = (acc ++ [' ']) ++
            (',' :: ' ' :: SC.subAndA true (SC.subAmpSlash (innerOf m rest'))) := by
        rw [List.append_assoc]
        rfl
      rw [hrearr]
      rw [splitComma_name (acc ++ [' ']) _ ?hcf]
      case hcf =>
        intro c hc
        rcases List.mem_append.mp hc with h | h
        · exact goodChar_ne_comma (h1 c h)
        · simp only [List.mem_singleton] at h
          subst h
          decide
      rw [show splitComma (',' :: ' ' :: SC.subAndA true (SC.subAmpSlash (innerOf m rest')))
        = [] :: splitComma (' ' :: SC.subAndA true (SC.subAmpSlash (innerOf m rest'))) from rfl]
      have hsp : SC.subAndA true (SC.subAmpSlash (innerOf (' ' :: m) rest'))
          = ' ' :: SC.subAndA true (SC.subAmpSlash (innerOf m rest')) := by
        show SC.subAndA true (' ' :: SC.subAmpSlash (innerOf m rest')) = _
        rw [sub_sp_step]
      rw [← hsp]
      rw [ih (' ' :: m) ?hc1 (nsa_cons_sp hm2) hrest']
      case hc1 =>
        intro c hc
        rcases List.mem_cons.mp hc with h | h
        · subst h
          decide
        · exact hm1 c h
      show ((acc ++ [' ']) ++ []) :: sepParts (' ' :: m) rest'
        = (acc ++ [' ']) :: sepParts (' ' :: m) rest'
      simp

theorem ws_not_name {c : Char} (h : isPyWS c = true) : isNameCh c = false := by
  unfold isPyWS at h
  simp only [Bool.or_eq_true, decide_eq_true_eq] at h
  rcases h with ((((h | h) | h) | h) | h) | h <;> subst h <;> decide

theorem nameCh_not_ws {c : Char} (h : isNameCh c = true) : isPyWS c = false := by
  by_cases hw : isPyWS c = true
  · rw [ws_not_name hw] at h
    exact absurd h (by decide)
  · simpa using hw

theorem goodName_parts {n : List Char} (h : goodName n = true) :
    n ≠ [] ∧ (∀ c ∈ n, (isNameCh c || c = ' ') = true) ∧
      ¬(n.head? = some ' ') ∧ ¬(n.getLast? = some ' ') ∧ noSpPair n = true := by
  unfold goodName at h
  simp only [Bool.and_eq_true, Bool.not_eq_true', decide_eq_false_iff_not,
    Bool.not_eq_eq_eq_not, Bool.not_true, List.isEmpty_eq_false_iff_exists_mem,
    List.all_eq_true] at h
  obtain ⟨⟨⟨⟨h1, h2⟩, h3⟩, h4⟩, h5⟩ := h
  refine ⟨?_, h2, h3, h4, h5⟩
  obtain ⟨x, hx⟩ := h1
  intro e
  subst e
  simp at hx

theorem pyLStrip_cons_ws {c : Char} (hc : isPyWS c = true) (x : List Char) :
    pyLStrip (c :: x) = pyLStrip x := by
  unfold pyLStrip
  rw [List.dropWhile_cons, hc]
  simp

theorem pyLStrip_id {l : List Char} (h : ∀ z, l.head? = some z → isPyWS z = false) :
    pyLStrip l = l := by
  unfold pyLStrip
  cases l with
  | nil => rfl
  | cons c r =>
    rw [List.dropWhile_cons, h c rfl]
    simp

theorem pyStrip_good {n : List Char} (hg : goodName n = true) : pyStrip n = n := by
  obtain ⟨hne, hall, hhd, hlast, _⟩ := goodName_parts hg
  have hgc : ∀ z ∈ n, z ≠ ' ' → isPyWS z = false := by
    intro z hz hzs
    apply nameCh_not_ws
    rcases Bool.or_eq_true_iff.mp (hall z hz) with h | h
    · exact h
    · simp only [decide_eq_true_eq] at h
      exact absurd h hzs
  have hR : pyRStrip n = n := by
    apply pyRStrip_id
    intro z hz
    refine hgc z (mem_of_getLast?_eq hz) ?_
    intro e
    subst e
    exact hlast hz
  show pyLStrip (pyRStrip n) = n
  rw [hR]
  apply pyLStrip_id
  intro z hz
  have hzm : z ∈ n := by
    cases n with
    | nil => simp at hz
    | cons c r =>
      simp only [List.head?_cons, Option.some.injEq] at hz
      subst hz
      exact List.mem_cons_self _ _
  refine hgc z hzm ?_
  intro e
  subst e
  exact hhd hz

theorem pyStrip_snoc_sp (x : List Char) : pyStrip (x ++ [' ']) = pyStrip x := by
  show pyLStrip (pyRStrip (x ++ [' '])) = pyLStrip (pyRStrip x)
  rw [rstrip_snoc_ws (by decide)]

theorem pyStrip_cons_sp (x : List Char) : pyStrip (' ' :: x) = pyStrip x := by
  show pyLStrip (pyRStrip (' ' :: x)) = pyLStrip (pyRStrip x)
  unfold pyRStrip
  rw [show (' ' :: x).reverse = x.reverse ++ [' '] from by simp]
  rw [List.dropWhile_append]
  by_cases he : (x.reverse.dropWhile isPyWS).isEmpty = true
  · rw [if_pos he]
    rw [show List.dropWhile isPyWS [' '] = ([] : List Char) from by decide]
    rw [List.isEmpty_iff] at he
    rw [he]
  · rw [if_neg he]
    rw [List.reverse_append]
    show pyLStrip ([' '].reverse ++ (x.reverse.dropWhile isPyWS).reverse) = _
    rw [show ([' '] : List Char).reverse = [' '] from rfl]
    show pyLStrip (' ' :: (x.reverse.dropWhile isPyWS).reverse) = _
    rw [pyLStrip_cons_ws (by decide)]

theorem toUpper_id_small {c : Char} (h : c.toNat < 97) : c.toUpper = c := by
  show (if c.toNat ≥ 97 ∧ c.toNat ≤ 122 then Char.ofNat (c.toNat - 32) else c) = c
  rw [if_neg (fun hc => absurd hc.1 (by omega))]

theorem toUpper_id_big {c : Char} (h : 122 < c.toNat) : c.toUpper = c := by
  show (if c.toNat ≥ 97 ∧ c.toNat ≤ 122 then Char.ofNat (c.toNat - 32) else c) = c
  rw [if_neg (fun hc => absurd hc.2 (by omega))]

theorem toUpper_good {c : Char} (h : (isNameCh c || c = ' ') = true) : c.toUpper = c := by
  rcases Bool.or_eq_true_iff.mp h with h | h
  swap
  · simp only [decide_eq_true_eq] at h
    subst h
    decide
  unfold isNameCh at h
  simp only [Bool.or_eq_true, decide_eq_true_eq] at h
  rcases h with (((h | h) | h) | h) | h
  · apply toUpper_id_small
    unfold isUpperA at h
    have h2 := (Bool.and_eq_true_iff.mp h).2
    simp only [decide_eq_true_eq] at h2
    rw [Char.le_def] at h2
    have h3 : c.toNat ≤ 90 := le_trans h2 (by decide)
    omega
  · apply toUpper_id_small
    unfold isDigitA at h
    have h2 := (Bool.and_eq_true_iff.mp h).2
    simp only [decide_eq_true_eq] at h2
    rw [Char.le_def] at h2
    have h3 : c.toNat ≤ 57 := le_trans h2 (by decide)
    omega
  · subst h
    decide
  · subst h
    decide
  · subst h
    decide

theorem upperStr_good : ∀ {n : List Char},
    (∀ c ∈ n, (isNameCh c || c = ' ') = true) → upperStr n = n := by
  intro n
  induction n with
  | nil =>
    intro _
    rfl
  | cons c r ih =>
    intro h
    show c.toUpper :: upperStr r = c :: r
    rw [toUpper_good (h c (List.mem_cons_self _ _)),
      ih fun z hz => h z (List.mem_cons_of_mem _ hz)]

theorem stripParts : ∀ (rest : List (NameSep × List Char)) (acc n : List Char),
    pyStrip acc = n →
    (∀ p ∈ rest, goodName p.2 = true) →
    (sepParts acc rest).map pyStrip = n :: rest.map Prod.snd := by
  intro rest
  induction rest with
  | nil =>
    intro acc n h _
    show [pyStrip acc] = [n]
    rw [h]
  | cons p rest' ih =>
    intro acc n h hg
    rcases p with ⟨s, m⟩
    have hgm : goodName m = true := hg (s, m) (List.mem_cons_self _ _)
    have hrest : ∀ q ∈ rest', goodName q.2 = true :=
      fun q hq => hg q (List.mem_cons_of_mem _ hq)
    cases s with
    | andw =>
      show ((acc ++ [' ']) :: sepParts (' ' :: m) rest').map pyStrip
        = n :: m :: rest'.map Prod.snd
      rw [List.map_cons, pyStrip_snoc_sp, h]
      rw [ih (' ' :: m) m (by rw [pyStrip_cons_sp]; exact pyStrip_good hgm) hrest]
    | comma =>
      show (acc :: sepParts m rest').map pyStrip = n :: m :: rest'.map Prod.snd
      rw [List.map_cons, h, ih m m (pyStrip_good hgm) hrest]
    | slash =>
      show (acc :: sepParts m rest').map pyStrip = n :: m :: rest'.map Prod.snd
      rw [List.map_cons, h, ih m m (pyStrip_good hgm) hrest]
    | amp =>
      show (acc :: sepParts m rest').map pyStrip = n :: m :: rest'.map Prod.snd
      rw [List.map_cons, h, ih m m (pyStrip_good hgm) hrest]

theorem filter_ne_nil_id {L : List (List Char)} (h : ∀ x ∈ L, x ≠ []) :
    L.filter (· ≠ []) = L := by
  rw [List.filter_eq_self]
  intro a ha
  simpa using h a ha

theorem goodChar_ne_paren {c : Char} (h : (isNameCh c || c = ' ') = true) : c ≠ '(' := by
  intro e
  subst e
  exact absurd h (by decide)

theorem subParen_id : ∀ {l : List Char}, (∀ c ∈ l, c ≠ '(') → subParen l = l := by
  intro l
  induction l with
  | nil =>
    intro _
    rfl
  | cons c r ih =>
    intro h
    show (if c = '(' then subParenA (some []) r else c :: subParenA none r) = c :: r
    rw [if_neg (h c (List.mem_cons_self _ _))]
    show c :: subParen r = c :: r
    rw [ih fun z hz => h z (List.mem_cons_of_mem _ hz)]

theorem findLow_none : ∀ (l : List Char) (b : Bool) (i : Nat),
    (∀ c ∈ l, isLowerA c = false) → findLowAux b i l = none := by
  intro l
  induction l with
  | nil =>
    intro b i _
    rfl
  | cons c r ih =>
    intro b i h
    rw [findLowAux_cons]
    rw [if_neg ?hn]
    · exact ih (!isWordCh c) (i + 1) fun z hz => h z (List.mem_cons_of_mem _ hz)
    case hn =>
      rw [h c (List.mem_cons_self _ _)]
      simp

theorem nsp_peel {a : Char} {l : List Char} (h : noSpPair (a :: l) = true) :
    noSpPair l = true := by
  cases l with
  | nil => rfl
  | cons x xs => exact (Bool.and_eq_true_iff.mp h).2

theorem nsp_head {x : Char} {xs : List Char} (h : noSpPair (' ' :: x :: xs) = true) :
    ¬(x = ' ') := by
  have h1 := (Bool.and_eq_true_iff.mp h).1
  intro e
  subst e
  simp at h1

theorem last_tail {c : Char} {r : List Char} (h : ¬((c :: r).getLast? = some ' ')) :
    ¬(r.getLast? = some ' ') := by
  cases r with
  | nil => simp
  | cons x xs =>
    intro e
    exact h (by rw [List.getLast?_cons_cons]; exact e)

theorem leadAux_good : ∀ (k : Nat) (n : List Char), n.length ≤ k →
    (∀ c ∈ n, (isNameCh c || c = ' ') = true) →
    noSpPair n = true →
    ¬(n.getLast? = some ' ') →
    leadAux [] n = n := by
  intro k
  induction k with
  | zero =>
    intro n hn _ _ _
    have he : n = [] := List.length_eq_zero.mp (Nat.le_zero.mp hn)
    subst he
    rfl
  | succ k ih =>
    intro n hn hall hsp hlast
    match n, hn, hall, hsp, hlast with
    | [], _, _, _, _ => rfl
    | c :: r, hn, hall, hsp, hlast =>
      rcases Bool.or_eq_true_iff.mp (hall c (List.mem_cons_self _ _)) with hc | hc
      · show (if isNameCh c = true then [] ++ c :: leadAux [] r
          else if isPyWS c = true then leadAux ([] ++ [c]) r else []) = c :: r
        rw [if_pos hc]
        show c :: leadAux [] r = c :: r
        rw [ih r (by simp only [List.length_cons] at hn; omega)
          (fun z hz => hall z (List.mem_cons_of_mem _ hz)) (nsp_peel hsp) (last_tail hlast)]
      · simp only [decide_eq_true_eq] at hc
        subst hc
        show (if isNameCh ' ' = true then [] ++ ' ' :: leadAux [] r
          else if isPyWS ' ' = true then leadAux ([] ++ [' ']) r else []) = ' ' :: r
        rw [if_neg (by decide), if_pos (by decide)]
        match r, hn, hall, hsp, hlast with
        | [], _, _, _, hlast => exact absurd rfl hlast
        | x :: xs, hn, hall, hsp, hlast =>
          have hx : isNameCh x = true := by
            rcases Bool.or_eq_true_iff.mp
              (hall x (List.mem_cons_of_mem _ (List.mem_cons_self _ _))) with h | h
            · exact h
            · simp only [decide_eq_true_eq] at h
              exact absurd h (nsp_head hsp)
          show (if isNameCh x = true then [' '] ++ x :: leadAux [] xs
            else if isPyWS x = true then leadAux ([' '] ++ [x]) xs else []) = ' ' :: x :: xs
          rw [if_pos hx]
          show ' ' :: x :: leadAux [] xs = ' ' :: x :: xs
          rw [ih xs (by simp only [List.length_cons] at hn; omega)
            (fun z hz => hall z (List.mem_cons_of_mem _ (List.mem_cons_of_mem _ hz)))
            (nsp_peel (nsp_peel hsp)) (last_tail (last_tail hlast))]

theorem lower_toNat {c : Char} (h : isLowerA c = true) : 97 ≤ c.toNat ∧ c.toNat ≤ 122 := by
  unfold isLowerA at h
  rcases Bool.and_eq_true_iff.mp h with ⟨h1, h2⟩
  simp only [decide_eq_true_eq] at h1 h2
  rw [Char.le_def] at h1 h2
  have h1' : Char.toNat 'a' ≤ c.toNat := h1
  have h2' : c.toNat ≤ Char.toNat 'z' := h2
  have e1 : Char.toNat 'a' = 97 := rfl
  have e2 : Char.toNat 'z' = 122 := rfl
  omega

theorem lower_not_good {c : Char} (h : isLowerA c = true) :
    (isNameCh c || c = ' ') = false := by
  obtain ⟨hl, hu⟩ := lower_toNat h
  by_cases hg : (isNameCh c || c = ' ') = true
  swap
  · simpa using hg
  exfalso
  rcases Bool.or_eq_true_iff.mp hg with hn | hn
  · unfold isNameCh at hn
    simp only [Bool.or_eq_true, decide_eq_true_eq] at hn
    rcases hn with (((hn | hn) | hn) | hn) | hn
    · unfold isUpperA at hn
      have h2 := (Bool.and_eq_true_iff.mp hn).2
      simp only [decide_eq_true_eq] at h2
      rw [Char.le_def] at h2
      have h2' : c.toNat ≤ Char.toNat 'Z' := h2
      have e : Char.toNat 'Z' = 90 := rfl
      omega
    · unfold isDigitA at hn
      have h2 := (Bool.and_eq_true_iff.mp hn).2
      simp only [decide_eq_true_eq] at h2
      rw [Char.le_def] at h2
      have h2' : c.toNat ≤ Char.toNat '9' := h2
      have e : Char.toNat '9' = 57 := rfl
      omega
    · subst hn
      exact absurd hl (by decide)
    · subst hn
      exact absurd hu (by decide)
    · subst hn
      exact absurd hl (by decide)
  · simp only [decide_eq_true_eq] at hn
    subst hn
    exact absurd hl (by decide)

theorem good_not_lower {c : Char} (h : (isNameCh c || c = ' ') = true) :
    isLowerA c = false := by
  by_cases hl : isLowerA c = true
  · rw [lower_not_good hl] at h
    exact absurd h (by decide)
  · simpa using hl

theorem procPart_good (named out : List (List Char)) (p n : List Char)
    (hp : pyStrip (subParen p) = n)
    (hg : goodName n = true)
    (hb : ¬(n = str "BOTH")) (ha : ¬(n = str "ALL")) :
    NE.procPartNorm named out p = NE.insertNew out n := by
  obtain ⟨hne, hall, hhd, hlast, hsp⟩ := goodName_parts hg
  have hlow : ∀ c ∈ n, isLowerA c = false := fun c hc => good_not_lower (hall c hc)
  have htr : truncLow n = n := by
    show (match findLow n with | some i => pyStrip (n.take i) | none => n) = n
    rw [show findLow n = none from findLow_none n true 0 hlow]
  have hup : upperStr n = n := upperStr_good hall
  have hlead : leadUpper n = some n := by
    match n, hne, hall, hhd, hsp, hlast with
    | [], hne, _, _, _, _ => exact absurd rfl hne
    | c :: r, _, hall, hhd, hsp, hlast =>
      have hc : isNameCh c = true := by
        rcases Bool.or_eq_true_iff.mp (hall c (List.mem_cons_self _ _)) with h | h
        · exact h
        · simp only [decide_eq_true_eq] at h
          subst h
          exact absurd rfl hhd
      show (if isNameCh c = true then some (leadAux [] (c :: r)) else none) = some (c :: r)
      rw [if_pos hc, leadAux_good (c :: r).length (c :: r) le_rfl hall hsp hlast]
  unfold NE.procPartNorm
  rw [hp, if_neg hne, htr, if_neg hne, hup]
  rw [if_neg ?hba]
  case hba => simp [hb, ha]
  rw [hlead]
  show (if pyStrip n ∈ out then out else out ++ [pyStrip n]) = NE.insertNew out n
  rw [pyStrip_good hg]
  rfl

theorem foldl_insertNew_nodup : ∀ (names acc : List (List Char)),
    (acc ++ names).Nodup →
    List.foldl NE.insertNew acc names = acc ++ names := by
  intro names
  induction names with
  | nil =>
    intro acc _
    simp
  | cons n ns ih =>
    intro acc hnd
    show List.foldl NE.insertNew (NE.insertNew acc n) ns = acc ++ n :: ns
    have hnin : n ∉ acc := by
      rcases List.nodup_append.mp hnd with ⟨_, _, hdisj⟩
      intro hin
      exact hdisj hin (List.mem_cons_self _ _)
    rw [show NE.insertNew acc n = acc ++ [n] from by unfold NE.insertNew; rw [if_neg hnin]]
    rw [ih (acc ++ [n]) (by simpa using hnd)]
    simp

theorem fold_procPart (named : List (List Char)) :
    ∀ (parts names : List (List Char)) (out : List (List Char)),
    parts.map (fun p => pyStrip (subParen p)) = names →
    (∀ n ∈ names, goodName n = true ∧ ¬(n = str "BOTH") ∧ ¬(n = str "ALL")) →
    List.foldl (NE.procPartNorm named) out parts = List.foldl NE.insertNew out names := by
  intro parts
  induction parts with
  | nil =>
    intro names out he _
    rw [← he]
    rfl
  | cons p ps ih =>
    intro names out he hg
    match names, he with
    | [], he => exact absurd he (by simp)
    | n :: ns, he =>
      simp only [List.map_cons, List.cons.injEq] at he
      obtain ⟨he1, he2⟩ := he
      obtain ⟨hgn, hb, ha⟩ := hg n (List.mem_cons_self _ _)
      show List.foldl (NE.procPartNorm named) (NE.procPartNorm named out p) ps = _
      rw [procPart_good named out p n he1 hgn hb ha]
      exact ih ns (NE.insertNew out n) he2 fun w hw => hg w (List.mem_cons_of_mem _ hw)

theorem sepParts_chars : ∀ (rest : List (NameSep × List Char)) (acc : List Char),
    (∀ c ∈ acc, (isNameCh c || c = ' ') = true) →
    (∀ q ∈ rest, ∀ c ∈ q.2, (isNameCh c || c = ' ') = true) →
    ∀ p ∈ sepParts acc rest, ∀ c ∈ p, (isNameCh c || c = ' ') = true := by
  intro rest
  induction rest with
  | nil =>
    intro acc hacc _ p hp
    have he : p = acc := by
      have hp' : p ∈ [acc] := hp
      simpa using hp'
    subst he
    exact hacc
  | cons q rest' ih =>
    intro acc hacc hrest p hp
    rcases q with ⟨s, m⟩
    have hm : ∀ c ∈ m, (isNameCh c || c = ' ') = true :=
      hrest (s, m) (List.mem_cons_self _ _)
    have hrest2 : ∀ w ∈ rest', ∀ c ∈ w.2, (isNameCh c || c = ' ') = true :=
      fun w hw => hrest w (List.mem_cons_of_mem _ hw)
    have hspm : ∀ c ∈ (' ' :: m), (isNameCh c || c = ' ') = true := by
      intro c hc
      rcases List.mem_cons.mp hc with h | h
      · subst h
        decide
      · exact hm c h
    have haccsp : ∀ c ∈ (acc ++ [' ']), (isNameCh c || c = ' ') = true := by
      intro c hc
      rcases List.mem_append.mp hc with h | h
      · exact hacc c h
      · simp only [List.mem_singleton] at h
        subst h
        decide
    cases s with
    | andw =>
      have hp' : p ∈ (acc ++ [' ']) :: sepParts (' ' :: m) rest' := hp
      rcases List.mem_cons.mp hp' with h | h
      · subst h
        exact haccsp
      · exact ih (' ' :: m) hspm hrest2 p h
    | comma =>
      have hp' : p ∈ acc :: sepParts m rest' := hp
      rcases List.mem_cons.mp hp' with h | h
      · subst h
        exact hacc
      · exact ih m hm hrest2 p h
    | slash =>
      have hp' : p ∈ acc :: sepParts m rest' := hp
      rcases List.mem_cons.mp hp' with h | h
      · subst h
        exact hacc
      · exact ih m hm hrest2 p h
    | amp =>
      have hp' : p ∈ acc :: sepParts m rest' := hp
      rcases List.mem_cons.mp hp' with h | h
      · subst h
        exact hacc
      · exact ih m hm hrest2 p h

theorem ne_norm_good (n0 : List Char) (rest : List (NameSep × List Char))
    (named : List (List Char))
    (h0 : goodName n0 = true) (h0a : noStandaloneAnd true n0 = true)
    (h0b : ¬(n0 = str "BOTH")) (h0c : ¬(n0 = str "ALL"))
    (hr : ∀ q ∈ rest, goodName q.2 = true ∧ noStandaloneAnd true q.2 = true ∧
      ¬(q.2 = str "BOTH") ∧ ¬(q.2 = str "ALL"))
    (hnd : (n0 :: rest.map Prod.snd).Nodup) :
    NE.normalize_token (innerOf n0 rest) named
      = List.intercalate (str ", ") (n0 :: rest.map Prod.snd) := by
  have hchar0 := (goodName_parts h0).2.1
  have hsplit : splitSep (innerOf n0 rest) = sepParts n0 rest := by
    show splitSepA true (innerOf n0 rest) = _
    apply split_inner rest n0 (fun c hc => goodChar_not_sep (hchar0 c hc)) h0a
    intro q hq
    exact ⟨fun c hc => goodChar_not_sep ((goodName_parts (hr q hq).1).2.1 c hc),
      (hr q hq).2.1⟩
  have hparts_chars := sepParts_chars rest n0 hchar0
    (fun q hq => (goodName_parts (hr q hq).1).2.1)
  have hmapstrip : (sepParts n0 rest).map pyStrip = n0 :: rest.map Prod.snd :=
    stripParts rest n0 n0 (pyStrip_good h0) (fun q hq => (hr q hq).1)
  have hmap : (sepParts n0 rest).map (fun p => pyStrip (subParen p))
      = n0 :: rest.map Prod.snd := by
    have hc : (sepParts n0 rest).map (fun p => pyStrip (subParen p))
        = (sepParts n0 rest).map pyStrip :=
      List.map_congr_left fun p hp => by
        rw [subParen_id fun c hc => goodChar_ne_paren (hparts_chars p hp c hc)]
    rw [hc, hmapstrip]
  have hgood_names : ∀ n ∈ n0 :: rest.map Prod.snd,
      goodName n = true ∧ ¬(n = str "BOTH") ∧ ¬(n = str "ALL") := by
    intro n hn
    rcases List.mem_cons.mp hn with h | h
    · subst h
      exact ⟨h0, h0b, h0c⟩
    · rcases List.mem_map.mp h with ⟨q, hq, he⟩
      rw [← he]
      exact ⟨(hr q hq).1, (hr q hq).2.2.1, (hr q hq).2.2.2⟩
  unfold NE.normalize_token
  rw [hsplit]
  rw [fold_procPart named (sepParts n0 rest) (n0 :: rest.map Prod.snd) [] hmap hgood_names]
  rw [foldl_insertNew_nodup (n0 :: rest.map Prod.snd) [] (by simpa using hnd)]
  simp only [List.nil_append]
  rw [if_neg (by simp)]

theorem sc_norm_good (n0 : List Char) (rest : List (NameSep × List Char))
    (h0 : goodName n0 = true) (h0a : noStandaloneAnd true n0 = true)
    (hr : ∀ q ∈ rest, goodName q.2 = true ∧ noStandaloneAnd true q.2 = true) :
    SC.normalize_token (innerOf n0 rest)
      = List.intercalate (str ", ") (n0 :: rest.map Prod.snd) := by
  have hchar0 := (goodName_parts h0).2.1
  show (str ", ").intercalate
      (List.filter (fun x => decide (x ≠ []))
        (List.map pyStrip
          (splitComma (SC.subAndA true (SC.subAmpSlash (innerOf n0 rest))))))
    = (str ", ").intercalate (n0 :: List.map Prod.snd rest)
  rw [sub_split rest n0 hchar0 h0a
    (fun q hq => ⟨(goodName_parts (hr q hq).1).2.1, (hr q hq).2⟩)]
  rw [stripParts rest n0 n0 (pyStrip_good h0) (fun q hq => (hr q hq).1)]
  rw [filter_ne_nil_id ?hne]
  case hne =>
    intro x hx
    rcases List.mem_cons.mp hx with h | h
    · subst h
      exact (goodName_parts h0).1
    · rcases List.mem_map.mp h with ⟨q, hq, he⟩
      rw [← he]
      exact (goodName_parts (hr q hq).1).1

/-- C10 (amended): for every annotation inner text built from
pairwise-distinct names joined by comma, slash, ampersand or standalone
` and ` separators — each name nonempty, made only of the characters
`[A-Z0-9'’\-]` with words separated by single spaces, containing no
word-bounded occurrence of `and` in any letter case, and distinct from
`BOTH` and `ALL` — the context-aware Token Normalizer (with any candidate
set) and the context-free Token Normalizer agree, both returning the
names joined by `", "`. -/
theorem c10_amended_equivalence (n0 : List Char) (rest : List (NameSep × List Char))
    (named : List (List Char))
    (hg : ∀ n ∈ n0 :: rest.map Prod.snd,
      goodName n = true ∧ noStandaloneAnd true n = true ∧
        ¬(n = str "BOTH") ∧ ¬(n = str "ALL"))
    (hnd : (n0 :: rest.map Prod.snd).Nodup) :
    NE.normalize_token (innerOf n0 rest) named = SC.normalize_token (innerOf n0 rest)
    ∧ SC.normalize_token (innerOf n0 rest)
        = List.intercalate (str ", ") (n0 :: rest.map Prod.snd) := by
  obtain ⟨h0, h0a, h0b, h0c⟩ := hg n0 (List.mem_cons_self _ _)
  have hr : ∀ q ∈ rest, goodName q.2 = true ∧ noStandaloneAnd true q.2 = true ∧
      ¬(q.2 = str "BOTH") ∧ ¬(q.2 = str "ALL") := by
    intro q hq
    exact hg q.2 (List.mem_cons_of_mem _ (List.mem_map.mpr ⟨q, hq, rfl⟩))
  have hsc := sc_norm_good n0 rest h0 h0a fun q hq => ⟨(hr q hq).1, (hr q hq).2.1⟩
  have hne := ne_norm_good n0 rest named h0 h0a h0b h0c hr hnd
  exact ⟨hne.trans hsc.symm, hsc⟩

theorem c10_amended_witness :
    NE.normalize_token (innerOf (str "ODYSSEUS") [(NameSep.andw, str "PENELOPE")]) []
      = SC.normalize_token (innerOf (str "ODYSSEUS") [(NameSep.andw, str "PENELOPE")])
    ∧ SC.normalize_token (innerOf (str "ODYSSEUS") [(NameSep.andw, str "PENELOPE")])
      = List.intercalate (str ", ") [str "ODYSSEUS", str "PENELOPE"] :=
  c10_amended_equivalence (str "ODYSSEUS") [(NameSep.andw, str "PENELOPE")] []
    (by decide) (by decide)
